import Mathlib

set_option maxRecDepth 8000

/-!
Verification development for the aozolite corpus builder.

The Python sources are shallowly embedded here:

* Python `str` values are modelled as `List Char` (sequences of Unicode
  scalar values; surrogate code points, which Lean's `Char` excludes, do
  not occur in any input considered here).
* `unicodedata.normalize` is modelled by table-driven functions that are
  faithful to the Unicode Character Database on the character repertoire
  this program manipulates: the kana block's canonical (de)compositions
  with the combining voicing marks U+3099/U+309A, and — for the
  compatibility forms — the fullwidth ASCII block and the ideographic
  space.  Characters outside the modelled repertoire are treated as
  normalization-inert, which matches the UCD for every character
  appearing in the concrete inputs of the theorems below.
* BeautifulSoup node trees are modelled by the inductive `Node`; the
  tag/class/attribute search and replace operations used by the sources
  are modelled directly.  A second, store-based model with explicit node
  identity is used for the claims about mutation.
* The sqlite database written by `build.py` is modelled as lists of rows;
  the driver loop of `build.py:main` is modelled as a fold over the
  discovered file list.
-/

namespace PyStr

/-- Python `str.split(sep)` for a one-character separator: splitting the
empty string yields `[""]`, and `n` separators yield `n+1` fields. -/
def pysplit (sep : Char) : List Char → List (List Char)
  | [] => [[]]
  | c :: cs =>
    match pysplit sep cs with
    | [] => [[c]]
    | h :: t => if c = sep then [] :: h :: t else (c :: h) :: t

/-- Characters stripped by Python `str.strip()` (the Unicode whitespace
relevant to this corpus: ASCII whitespace, NBSP and the ideographic
space). -/
def isPySpace (c : Char) : Bool :=
  c = ' ' || c = '\t' || c = '\n' || c = '\r' || c = '\x0b' || c = '\x0c' ||
  c = '\u00A0' || c = '\u3000'

/-- Python `str.strip()`: drop leading and trailing whitespace. -/
def pystrip (s : List Char) : List Char :=
  ((s.dropWhile isPySpace).reverse.dropWhile isPySpace).reverse

/-- Worker for `replaceSub`: scan the string left to right with a skip
counter consuming the tail of an already-matched occurrence. -/
def replaceGo (pat rep : List Char) : List Char → Nat → List Char
  | [], _ => []
  | _ :: cs, skip + 1 => replaceGo pat rep cs skip
  | c :: cs, 0 =>
    if pat ≠ [] ∧ pat.isPrefixOf (c :: cs) then
      rep ++ replaceGo pat rep cs (pat.length - 1)
    else
      c :: replaceGo pat rep cs 0

/-- Python `str.replace(pat, rep)`: leftmost, non-overlapping replacement
of every occurrence of `pat` by `rep`.  (For the degenerate empty
pattern, which no source call uses, the string is returned unchanged.) -/
def replaceSub (pat rep : List Char) (s : List Char) : List Char :=
  replaceGo pat rep s 0

/-- Python `"\n".flatten(lines)`. -/
def joinNL : List (List Char) → List Char
  | [] => []
  | [l] => l
  | l :: ls => l ++ '\n' :: joinNL ls

end PyStr

namespace Uni

/-- One canonical composition entry: base character `a` followed by the
combining mark `b` composes to the precomposed character `c`. -/
structure CEnt where
  a : Char
  b : Char
  c : Char
deriving DecidableEq

/-- Canonical composition/decomposition pairs of the hiragana and
katakana blocks (UnicodeData.txt): every precomposed voiced or
semi-voiced kana and the voiced iteration marks. -/
def compTable : List CEnt := [
  ⟨'か', '\u3099', 'が'⟩, ⟨'き', '\u3099', 'ぎ'⟩, ⟨'く', '\u3099', 'ぐ'⟩,
  ⟨'け', '\u3099', 'げ'⟩, ⟨'こ', '\u3099', 'ご'⟩, ⟨'さ', '\u3099', 'ざ'⟩,
  ⟨'し', '\u3099', 'じ'⟩, ⟨'す', '\u3099', 'ず'⟩, ⟨'せ', '\u3099', 'ぜ'⟩,
  ⟨'そ', '\u3099', 'ぞ'⟩, ⟨'た', '\u3099', 'だ'⟩, ⟨'ち', '\u3099', 'ぢ'⟩,
  ⟨'つ', '\u3099', 'づ'⟩, ⟨'て', '\u3099', 'で'⟩, ⟨'と', '\u3099', 'ど'⟩,
  ⟨'は', '\u3099', 'ば'⟩, ⟨'ひ', '\u3099', 'び'⟩, ⟨'ふ', '\u3099', 'ぶ'⟩,
  ⟨'へ', '\u3099', 'べ'⟩, ⟨'ほ', '\u3099', 'ぼ'⟩,
  ⟨'は', '\u309A', 'ぱ'⟩, ⟨'ひ', '\u309A', 'ぴ'⟩, ⟨'ふ', '\u309A', 'ぷ'⟩,
  ⟨'へ', '\u309A', 'ぺ'⟩, ⟨'ほ', '\u309A', 'ぽ'⟩,
  ⟨'う', '\u3099', 'ゔ'⟩, ⟨'ゝ', '\u3099', 'ゞ'⟩,
  ⟨'カ', '\u3099', 'ガ'⟩, ⟨'キ', '\u3099', 'ギ'⟩, ⟨'ク', '\u3099', 'グ'⟩,
  ⟨'ケ', '\u3099', 'ゲ'⟩, ⟨'コ', '\u3099', 'ゴ'⟩, ⟨'サ', '\u3099', 'ザ'⟩,
  ⟨'シ', '\u3099', 'ジ'⟩, ⟨'ス', '\u3099', 'ズ'⟩, ⟨'セ', '\u3099', 'ゼ'⟩,
  ⟨'ソ', '\u3099', 'ゾ'⟩, ⟨'タ', '\u3099', 'ダ'⟩, ⟨'チ', '\u3099', 'ヂ'⟩,
  ⟨'ツ', '\u3099', 'ヅ'⟩, ⟨'テ', '\u3099', 'デ'⟩, ⟨'ト', '\u3099', 'ド'⟩,
  ⟨'ハ', '\u3099', 'バ'⟩, ⟨'ヒ', '\u3099', 'ビ'⟩, ⟨'フ', '\u3099', 'ブ'⟩,
  ⟨'ヘ', '\u3099', 'ベ'⟩, ⟨'ホ', '\u3099', 'ボ'⟩,
  ⟨'ハ', '\u309A', 'パ'⟩, ⟨'ヒ', '\u309A', 'ピ'⟩, ⟨'フ', '\u309A', 'プ'⟩,
  ⟨'ヘ', '\u309A', 'ペ'⟩, ⟨'ホ', '\u309A', 'ポ'⟩,
  ⟨'ウ', '\u3099', 'ヴ'⟩, ⟨'ワ', '\u3099', 'ヷ'⟩,
  ⟨'ヰ', '\u3099', 'ヸ'⟩, ⟨'ヱ', '\u3099', 'ヹ'⟩,
  ⟨'ヲ', '\u3099', 'ヺ'⟩, ⟨'ヽ', '\u3099', 'ヾ'⟩]

/-- Canonical pairwise composition: `composePair a b` is the precomposed
character when the pair `(a, b)` appears in the composition table. -/
def composePair (x y : Char) : Option Char :=
  (compTable.find? (fun e => e.a = x && e.b = y)).map (·.c)

/-- Canonical decomposition of a single character. -/
def decompChar (x : Char) : List Char :=
  match compTable.find? (fun e => e.c = x) with
  | some e => [e.a, e.b]
  | none => [x]

/-- Full canonical decomposition of a string. -/
def decompAll (s : List Char) : List Char :=
  (s.map decompChar).flatten

/-- Canonical composition scan: compose each adjacent composable pair.
(Because the composition table's second components are always combining
marks and never first components or composition results, processing the
tail first agrees with the left-to-right scan of the normalization
algorithm on every input.) -/
def composeAdj : List Char → List Char
  | [] => []
  | a :: rest =>
    match composeAdj rest with
    | [] => [a]
    | b :: r =>
      match composePair a b with
      | some c => c :: r
      | none => a :: b :: r

/-- Model of `unicodedata.normalize("NFC", s)` (canonical decomposition
then canonical composition; the modelled repertoire is the kana block). -/
def nfc (s : List Char) : List Char :=
  composeAdj (decompAll s)

/-- Compatibility decomposition of a single character: the fullwidth
ASCII block folds to ASCII, the ideographic space to a space, and
otherwise the canonical decomposition applies. -/
def decompCharK (x : Char) : List Char :=
  if 0xFF01 ≤ x.toNat ∧ x.toNat ≤ 0xFF5E then [Char.ofNat (x.toNat - 0xFEE0)]
  else if x = '\u3000' then [' ']
  else decompChar x

/-- Full compatibility decomposition of a string: model of
`unicodedata.normalize("NFKD", s)`. -/
def nfkd (s : List Char) : List Char :=
  (s.map decompCharK).flatten

/-- Model of `unicodedata.normalize("NFKC", s)`. -/
def nfkc (s : List Char) : List Char :=
  composeAdj (nfkd s)

end Uni

namespace Normalizers

open PyStr Uni

/-- Embedding of `normalizers.hiragana2katakana`: each hiragana code
point U+3041..U+3096 mapped to its katakana counterpart (offset 0x60).
The list order is the Python dict's insertion order (ascending). -/
def hiragana2katakana : List (Char × Char) :=
  (List.range 0x56).map (fun n => (Char.ofNat (0x3041 + n), Char.ofNat (0x30A1 + n)))

/-- Embedding of `normalizers.normalize_katakana`, in the source dict's
insertion order (which is the order the replacements are applied in). -/
def normalize_katakana : List (List Char × List Char) := [
  (['ァ'], ['ア']), (['ィ'], ['イ']), (['ゥ'], ['ウ']), (['ェ'], ['エ']),
  (['ォ'], ['オ']), (['ッ'], ['ツ']), (['ャ'], ['ヤ']), (['ュ'], ['ユ']),
  (['ョ'], ['ヨ']), (['ヵ'], ['カ']), (['ヶ'], ['ケ']), (['ヰ'], ['イ']),
  (['ヱ'], ['エ']), (['ヲ'], ['オ']), (['ヂ'], ['ジ']), (['ヅ'], ['ズ']),
  (['ヴ', 'ァ'], ['バ']), (['ヴ', 'ィ'], ['ビ']), (['ヴ'], ['ブ']),
  (['ヴ', 'ェ'], ['ベ']), (['ヴ', 'ォ'], ['ボ'])]

/-- Embedding of `normalizers.charset`: the katakana targets of
`hiragana2katakana` together with the ASCII digits. -/
def charsetList : List Char :=
  hiragana2katakana.map (·.2) ++ (List.range 10).map (fun n => Char.ofNat (0x30 + n))

/-- Embedding of `normalizers.normalize_reading`. -/
def normalize_reading (text : List Char) : List Char :=
  let t := nfkc text
  let t := hiragana2katakana.foldl (fun u p => replaceSub [p.1] [p.2] u) t
  let t := normalize_katakana.foldl (fun u p => replaceSub p.1 p.2 u) t
  let t := t.filter (fun c => charsetList.contains c)
  let t := replaceSub ['\u309A'] [] (replaceSub ['\u3099'] [] (nfkd t))
  nfkc t

/-- Embedding of the `replace_texts` tables of `normalizers.normalize_text`,
`bookParser.extract_text` and `book_texts.extract_text` (all three are
identical), in dict insertion order. -/
def replaceTexts : List (List Char × List Char) :=
  [(['※'], ['\uFFFD']), (['／', '＼'], ['\u3031']), (['／', '″', '＼'], ['\u3032'])]

/-- Application of the `replace_texts` substitutions in order. -/
def applyReplaces (s : List Char) : List Char :=
  replaceTexts.foldl (fun t p => replaceSub p.1 p.2 t) s

/-- Line cleanup shared by the normalizers and the parsers:
`"\n".flatten([x.strip() for x in text.split("\n") if x.strip() != ""])`. -/
def cleanLines (s : List Char) : List Char :=
  joinNL (((pysplit '\n' s).map pystrip).filter (fun l => l ≠ []))

/-- Embedding of `normalizers.normalize_text`. -/
def normalize_text (text : List Char) : List Char :=
  cleanLines (applyReplaces (nfc text))

end Normalizers

namespace Html

/-- Model of a BeautifulSoup node: a navigable string, or an element with
a tag name, a list of class tokens, an attribute list and children. -/
inductive Node where
  | text : List Char → Node
  | elem : List Char → List (List Char) → List (List Char × List Char) → List Node → Node

/-- Shorthand turning a string literal into the character-list model. -/
def S (s : String) : List Char := s.toList

/-- Tag test for an element node. -/
def tagIs (t : List Char) : Node → Bool
  | .elem tg _ _ _ => tg = t
  | .text _ => false

/-- Class test, matching BeautifulSoup's `class_` filter (membership in
the class token list). -/
def hasClass (c : List Char) : Node → Bool
  | .elem _ cls _ _ => cls.contains c
  | .text _ => false

/-- Attribute lookup, matching `tag.attrs[k]` (`none` models `KeyError`). -/
def attrLookup (k : List Char) : Node → Option (List Char)
  | .elem _ _ attrs _ => (attrs.find? (fun p => p.1 = k)).map (·.2)
  | .text _ => none

mutual

/-- Model of `tag.get_text()`: concatenation of all strings, in document
order. -/
def textOf : Node → List Char
  | .text s => s
  | .elem _ _ _ cs => textOfList cs

/-- Text concatenation over a child list. -/
def textOfList : List Node → List Char
  | [] => []
  | n :: ns => textOf n ++ textOfList ns

end

mutual

/-- Model of `tag.find(...)`: the first descendant (document order,
excluding the node itself) satisfying the predicate. -/
def findDesc (p : Node → Bool) : Node → Option Node
  | .text _ => none
  | .elem _ _ _ cs => findDescList p cs

/-- Document-order search through a child list and their subtrees. -/
def findDescList (p : Node → Bool) : List Node → Option Node
  | [] => none
  | n :: ns =>
    if p n then some n
    else
      match findDesc p n with
      | some m => some m
      | none => findDescList p ns

end

mutual

/-- Number of descendants satisfying a predicate. -/
def countDesc (p : Node → Bool) : Node → Nat
  | .text _ => 0
  | .elem _ _ _ cs => countDescList p cs

/-- Count over a child list and their subtrees. -/
def countDescList (p : Node → Bool) : List Node → Nat
  | [] => 0
  | n :: ns => (if p n then 1 else 0) + countDesc p n + countDescList p ns

end

mutual

/-- Model of one `for hit in tree.find_all(...): hit.replace_with(f(hit))`
pass where the replacement may fail (`ruby.find(major).text` raises when
`find` returns `None`; `attrs["alt"]` raises when absent): every matched
descendant is replaced by the text the replacement function yields, and
unmatched subtrees are traversed recursively. -/
def rewriteE (m : Node → Bool) (repl : Node → Except Unit (List Char)) : Node → Except Unit Node
  | .text s => .ok (.text s)
  | .elem tg cls attrs cs => do
    let cs' ← rewriteEList m repl cs
    .ok (.elem tg cls attrs cs')

/-- Child-list traversal for `rewriteE`. -/
def rewriteEList (m : Node → Bool) (repl : Node → Except Unit (List Char)) :
    List Node → Except Unit (List Node)
  | [] => .ok []
  | n :: ns => do
    let n' ← if m n then do
        let s ← repl n
        pure (Node.text s)
      else rewriteE m repl n
    let ns' ← rewriteEList m repl ns
    .ok (n' :: ns')

end

mutual

/-- Total variant of `rewriteE` for the passes whose replacement is a
fixed string (image, note, newline-string and line-break removal). -/
def rewriteT (m : Node → Bool) (repl : List Char) : Node → Node
  | .text s => .text s
  | .elem tg cls attrs cs => .elem tg cls attrs (rewriteTList m repl cs)

/-- Child-list traversal for `rewriteT`. -/
def rewriteTList (m : Node → Bool) (repl : List Char) : List Node → List Node
  | [] => []
  | n :: ns =>
    (if m n then Node.text repl else rewriteT m repl n) :: rewriteTList m repl ns

end

/-- Replacement computed for one ruby node: the flattened text of its
first descendant with the major tag; failure models the `AttributeError`
from `None.text` when no such descendant exists. -/
def rubyRepl (major : List Char) (n : Node) : Except Unit (List Char) :=
  match findDesc (tagIs major) n with
  | some m => .ok (textOf m)
  | none => .error ()

/-- The ruby pass shared by both `extract_text` implementations. -/
def rubyPass (major : List Char) : Node → Except Unit Node :=
  rewriteE (tagIs (S "ruby")) (rubyRepl major)

/-- Matcher for `find_all("img", class_="gaiji")`. -/
def isGaiji (n : Node) : Bool :=
  tagIs (S "img") n && hasClass (S "gaiji") n

/-- Uppercase hexadecimal digit test (the character class of the
`U\+([0-9A-F]+)` pattern in `book_texts`). -/
def isHexUp (c : Char) : Bool :=
  ('0' ≤ c && c ≤ '9') || ('A' ≤ c && c ≤ 'F')

/-- Value of an uppercase hexadecimal digit. -/
def hexVal (c : Char) : Nat :=
  if c ≤ '9' then c.toNat - 48 else c.toNat - 55

/-- Model of `re.search(r"U\+([0-9A-F]+)", alt)` followed by
`int(group(1), 16)`: the value of the leftmost `U+<hex>` marker, with a
greedy maximal digit run. -/
def findUnicodeMarker : List Char → Option Nat
  | [] => none
  | c :: rest =>
    if c = 'U' then
      match rest with
      | '+' :: r2 =>
        let ds := r2.takeWhile isHexUp
        if ds.isEmpty then findUnicodeMarker rest
        else some (ds.foldl (fun a d => 16 * a + hexVal d) 0)
      | _ => findUnicodeMarker rest
    else findUnicodeMarker rest

/-- Matcher for `find_all("span", class_="notes")`. -/
def isNotes (n : Node) : Bool :=
  tagIs (S "span") n && hasClass (S "notes") n

/-- Matcher for `find_all(string="\n")`: a navigable string equal to a
lone newline. -/
def isNewlineString : Node → Bool
  | .text s => s = ['\n']
  | .elem _ _ _ _ => false

mutual

/-- Model of `tag.encode("utf-8").decode("utf-8")` (the raw markup of a
subtree).  The exact print format carries no weight in any theorem; it
only needs to be a function of the subtree. -/
def serialize : Node → List Char
  | .text s => s
  | .elem tg _ _ cs => '<' :: (tg ++ '>' :: serializeList cs) ++ '<' :: '/' :: (tg ++ ['>'])

/-- Serialization of a child list. -/
def serializeList : List Node → List Char
  | [] => []
  | n :: ns => serialize n ++ serializeList ns

end

/-- Matcher for `div` elements of a given class. -/
def divClass (c : List Char) (n : Node) : Bool :=
  tagIs (S "div") n && hasClass c n

/-- Matcher for `soup.find("a", rel="license")`. -/
def isLicenseAnchor (n : Node) : Bool :=
  tagIs (S "a") n && (attrLookup (S "rel") n = some (S "license"))

/-- Embedding of `extract_license` (identical in `bookParser` and
`book_texts`): the `href` of the license anchor when present; the
missing-`href` case models the `KeyError` from `attrs["href"]`. -/
def extract_license (soup : Node) : Except Unit (Option (List Char)) :=
  match findDesc isLicenseAnchor soup with
  | none => .ok none
  | some a =>
    match attrLookup (S "href") a with
    | some h => .ok (some h)
    | none => .error ()

/-- Embedding of `extract_colophon` (identical in `bookParser` and
`book_texts`): exactly one of the two end-matter containers must be
present; the error cases model the two `ValueError`s. -/
def extract_colophon (soup : Node) : Except Unit (List Char × List Char) :=
  match findDesc (divClass (S "bibliographical_information")) soup,
        findDesc (divClass (S "after_text")) soup with
  | none, none => .error ()
  | some _, some _ => .error ()
  | some c, none => .ok (serialize c, Normalizers.cleanLines (textOf c))
  | none, some c => .ok (serialize c, Normalizers.cleanLines (textOf c))

end Html

namespace book_texts

open Html Normalizers Uni PyStr

/-- Replacement for one gaiji image in `book_texts.extract_text`: read
`attrs["alt"]` (raising if absent), then substitute the code point of a
`U+<hex>` marker if one is found, else U+FFFD.  `chr` raises for values
beyond U+10FFFF; surrogate code points, which Lean's `Char` cannot
carry, are also routed to the error case (no input below exercises
them). -/
def gaijiRepl (n : Node) : Except Unit (List Char) :=
  match attrLookup (S "alt") n with
  | none => .error ()
  | some alt =>
    match findUnicodeMarker alt with
    | some v => if h : v.isValidChar then .ok [Char.ofNatAux v h] else .error ()
    | none => .ok ['�']

/-- Embedding of `book_texts.extract_text`.  The source first takes
`copy.deepcopy` of its argument and mutates only that working copy; in
this value semantics the rewriting is therefore expressed purely (the
mutation/aliasing behaviour itself is verified on the store model
below). -/
def extract_text (main_text : Node) (major : List Char) : Except Unit (List Char) := do
  let t ← rubyPass major main_text
  let t ← rewriteE isGaiji gaijiRepl t
  let t := rewriteT (tagIs (S "img")) [] t
  let t := rewriteT isNotes [] t
  let t := rewriteT isNewlineString [] t
  let t := rewriteT (tagIs (S "br")) ['\n'] t
  .ok (normalize_text (textOf t))

/-- Embedding of `book_texts.parse_book`, applied to the already-parsed
document tree (file I/O and cp932 decoding are outside the model). -/
def parse_book (soup : Node) : Except Unit (Option (List Char × List Char × List Char × List Char × List Char × Option (List Char))) :=
  match findDesc (divClass (S "main_text")) soup with
  | none => .ok none
  | some mt => do
    let body_raw := serialize mt
    let rb ← extract_text mt (S "rb")
    let rt ← extract_text mt (S "rt")
    let c ← extract_colophon soup
    let lic ← extract_license soup
    .ok (some (body_raw, rb, rt, c.1, c.2, lic))

end book_texts

namespace bookParser

open Html Normalizers Uni PyStr

/-- Embedding of `bookParser.extract_text`: unlike `book_texts`, every
gaiji image is replaced by U+FFFD outright (the `alt` attribute is never
inspected), and the final text additionally passes through NFKC. -/
def extract_text (main_text : Node) (major : List Char) : Except Unit (List Char) := do
  let t ← rubyPass major main_text
  let t := rewriteT isGaiji ['�'] t
  let t := rewriteT (tagIs (S "img")) [] t
  let t := rewriteT isNotes [] t
  let t := rewriteT isNewlineString [] t
  let t := rewriteT (tagIs (S "br")) ['\n'] t
  let s := nfc (textOf t)
  let s := applyReplaces s
  let s := cleanLines s
  .ok (nfkc s)

/-- Embedding of `bookParser.parse_book`, applied to the already-parsed
document tree. -/
def parse_book (soup : Node) : Except Unit (Option (List Char × List Char × List Char × List Char × List Char × Option (List Char))) :=
  match findDesc (divClass (S "main_text")) soup with
  | none => .ok none
  | some mt => do
    let body_raw := serialize mt
    let rb ← extract_text mt (S "rb")
    let rt ← extract_text mt (S "rt")
    let c ← extract_colophon soup
    let lic ← extract_license soup
    .ok (some (body_raw, rb, rt, c.1, c.2, lic))

end bookParser

namespace Build

open PyStr Html

/-- One row of the `cards` table.  The columns other than the keys
(title, readings, anthology, style, …) are carried as one opaque payload
field: no claim concerns them. -/
structure CardRow where
  id : Nat
  major_key : Nat
  payload : List Char
deriving DecidableEq, Repr

/-- One row of the `books` table (a text revision).  The body and
colophon columns are carried as one opaque payload field. -/
structure BookRow where
  card_id : Nat
  minor_key : Nat
  license : Option (List Char)
  payload : List Char
deriving DecidableEq, Repr

/-- The singleton `metadata` row. -/
structure MetaRow where
  style : List Char
  commit_hash : List Char
  date : List Char
deriving DecidableEq, Repr

/-- The tables of the output database that the claims quantify over. -/
structure DB where
  cards : List CardRow
  books : List BookRow
  metadata : List MetaRow
deriving DecidableEq, Repr

/-- The deterministic result of running `parse_book` on one discovered
file: an exception, a `None` body (not a literary page), or a parsed
book with an optional license URL. -/
inductive Outcome where
  | failed
  | noBody
  | book (license : Option (List Char)) (payload : List Char)
deriving DecidableEq, Repr

/-- One discovered `<author>/files/<major>_<minor>.html` file together
with the (deterministic) results of parsing its card and its body. -/
structure FileEntry where
  author_key : Nat
  major_key : Nat
  minor_key : Nat
  cardPayload : List Char
  outcome : Outcome
deriving DecidableEq, Repr

/-- The freshly-created working database. -/
def emptyDB : DB := ⟨[], [], []⟩

/-- Model of `SELECT id FROM cards WHERE major_key = ?`. -/
def findCard (db : DB) (major : Nat) : Option CardRow :=
  db.cards.find? (fun c => c.major_key = major)

/-- Next rowid handed out by sqlite for the `cards` table. -/
def nextCardId (db : DB) : Nat :=
  (db.cards.map (·.id)).foldr max 0 + 1

/-- Model of the card-resolution prologue of the per-file loop body:
reuse the committed card for this work group, or parse the card page and
insert a new row, returning the card id either way. -/
def ensureCard (db : DB) (f : FileEntry) : DB × Nat :=
  match findCard db f.major_key with
  | some c => (db, c.id)
  | none =>
    let cid := nextCardId db
    ({ db with cards := db.cards ++ [⟨cid, f.major_key, f.cardPayload⟩] }, cid)

/-- Model of the license gate of `build.py`:
`cc = [x.lower() for x in license.split("/")[4].split("-")]` and the
`"nd" in cc or "sa" in cc` test.  `none` models the `IndexError` raised
when the URL has fewer than five `/`-separated fields (caught by the
surrounding `except`, so the file is skipped). -/
def licenseRestrictive (url : List Char) : Option Bool :=
  match (pysplit '/' url).get? 4 with
  | none => none
  | some seg =>
    let cc := (pysplit '-' seg).map (fun t => t.map Char.toLower)
    some (cc.contains (S "nd") || cc.contains (S "sa"))

/-- Whether a parsed book with this license is inserted: no license is
accepted; a restrictive or malformed license URL is skipped. -/
def licenseAllows : Option (List Char) → Bool
  | none => true
  | some url =>
    match licenseRestrictive url with
    | none => false
    | some r => !r

/-- Model of
`SELECT EXISTS(SELECT * FROM books WHERE card_id = ? AND minor_key = ?)`. -/
def keyPresent (db : DB) (cid minor : Nat) : Bool :=
  db.books.any (fun b => b.card_id = cid && b.minor_key = minor)

/-- Model of one iteration of the driver loop of `build.py:main` for one
discovered file: resolve the card, skip if the `(card_id, minor_key)`
revision is already committed, otherwise parse and insert unless the
parse failed, the page had no body, or the license is restrictive. -/
def processFile (db : DB) (f : FileEntry) : DB :=
  let p := ensureCard db f
  let db1 := p.1
  let cid := p.2
  if keyPresent db1 cid f.minor_key then db1
  else
    match f.outcome with
    | .failed => db1
    | .noBody => db1
    | .book lic payload =>
      if licenseAllows lic then
        { db1 with books := db1.books ++ [⟨cid, f.minor_key, lic, payload⟩] }
      else db1

/-- The driver loop over the sorted discovered file list. -/
def run (db : DB) (files : List FileEntry) : DB :=
  files.foldl processFile db

/-- Model of one whole invocation of `build.py:main` against an existing
database file: `DROP TABLE IF EXISTS metadata` and table creation, the
driver loop, and the final metadata insert (the `VACUUM` changes no row). -/
def fullRun (db : DB) (files : List FileEntry) (stamp : MetaRow) : DB :=
  let db1 := run { db with metadata := [] } files
  { db1 with metadata := [stamp] }

/-- Number of row-changing statements a run executes, counting the
metadata drop, the card and book inserts, and the metadata insert (the
anthology/style/author upserts of the source would only add to this). -/
def fullRunWrites (db : DB) (files : List FileEntry) (stamp : MetaRow) : Nat :=
  let db1 := run { db with metadata := [] } files
  1 + (db1.cards.length - db.cards.length) + (db1.books.length - db.books.length) + 1

/-- The set of committed revision keys, as `(card_id, minor_key)` pairs. -/
def bookKeys (db : DB) : List (Nat × Nat) :=
  db.books.map (fun b => (b.card_id, b.minor_key))

end Build

namespace StoreM

open Html

/-- A node object in the heap model: a navigable string or an element
whose children are references to other node objects. -/
inductive NData where
  | txt : List Char → NData
  | el : List Char → List (List Char) → List (List Char × List Char) → List Nat → NData
deriving DecidableEq, Repr

/-- The heap: an association list from node identities to node objects,
plus the next fresh identity. -/
structure Store where
  entries : List (Nat × NData)
  next : Nat
deriving DecidableEq, Repr

/-- Dereference a node identity. -/
def lookupS (st : Store) (k : Nat) : Option NData :=
  (st.entries.find? (fun e => e.1 = k)).map (·.2)

/-- In-place mutation of one node object. -/
def updateS (st : Store) (k : Nat) (d : NData) : Store :=
  { st with entries := st.entries.map (fun e => if e.1 = k then (k, d) else e) }

/-- Allocation of a fresh node object. -/
def allocS (st : Store) (d : NData) : Store × Nat :=
  ({ entries := st.entries ++ [(st.next, d)], next := st.next + 1 }, st.next)

mutual

/-- Allocate a pure tree into the heap, returning the root identity.
Every identity handed out is fresh: this is `copy.deepcopy`'s guarantee
that the copy shares no node object with the original. -/
def allocTree : Store → Node → Store × Nat
  | st, .text s => allocS st (.txt s)
  | st, .elem tg cls attrs cs =>
    let p := allocTreeList st cs
    allocS p.1 (.el tg cls attrs p.2)

/-- Allocate a list of pure trees. -/
def allocTreeList : Store → List Node → Store × List Nat
  | st, [] => (st, [])
  | st, n :: ns =>
    let p := allocTree st n
    let q := allocTreeList p.1 ns
    (q.1, p.2 :: q.2)

end

/-- Sequence a child-reflection function over a child list. -/
def seqChildren (f : Nat → Option Node) : List Nat → Option (List Node)
  | [] => some []
  | k :: ks =>
    match f k, seqChildren f ks with
    | some n, some ns => some (n :: ns)
    | _, _ => none

/-- Reflect the subtree rooted at a node identity back into a pure tree
(with fuel bounding the depth). -/
def treeAt : Nat → Store → Nat → Option Node
  | 0, _, _ => none
  | fuel + 1, st, k =>
    match lookupS st k with
    | some (.txt s) => some (.text s)
    | some (.el tg cls attrs cids) =>
      match seqChildren (treeAt fuel st) cids with
      | some cs => some (.elem tg cls attrs cs)
      | none => none
    | none => none

/-- Model of `copy.deepcopy(main_text)`: reflect the subtree and
re-allocate it with entirely fresh identities.  (If the identity is
dangling or the fuel too small — situations no well-formed call
produces — a fresh empty string node is still allocated, so the result
never aliases pre-existing objects.) -/
def deepcopyS (st : Store) (root : Nat) (fuel : Nat) : Store × Nat :=
  match treeAt fuel st root with
  | some t => allocTree st t
  | none => allocS st (.txt [])

/-- Child-list worker for `mutPass`, generic in the recursive descent
`rec`: matched children are replaced in place by freshly-allocated
string nodes, unmatched children are traversed by `rec`, and a failed
replacement aborts the pass with the mutations made so far retained. -/
def mutChildrenGo (repl : Store → Nat → Option (Except Unit (List Char)))
    (rec : Store → Nat → Store × Bool) :
    Store → List Nat → Store × Option (List Nat)
  | st, [] => (st, some [])
  | st, k :: ks =>
    match repl st k with
    | some (.ok s) =>
      let p := allocS st (.txt s)
      match mutChildrenGo repl rec p.1 ks with
      | (st', some ks') => (st', some (p.2 :: ks'))
      | (st', none) => (st', none)
    | some (.error _) => (st, none)
    | none =>
      match rec st k with
      | (st1, true) =>
        match mutChildrenGo repl rec st1 ks with
        | (st', some ks') => (st', some (k :: ks'))
        | (st', none) => (st', none)
      | (st1, false) => (st1, none)

/-- Model of one mutating `for hit in tree.find_all(...):
hit.replace_with(...)` pass over the subtree rooted at `id`: matched
children are replaced in place by freshly-allocated string nodes,
unmatched element children are traversed recursively, and the parent's
child list is updated in place.  The replacement decision `repl` sees
the current heap; an error result models an exception escaping
the pass, with all mutations made so far retained. -/
def mutPass (repl : Store → Nat → Option (Except Unit (List Char))) :
    Nat → Store → Nat → Store × Bool
  | 0, st, _ => (st, true)
  | fuel + 1, st, id =>
    match lookupS st id with
    | some (.el tg cls attrs cids) =>
      match mutChildrenGo repl (mutPass repl fuel) st cids with
      | (st', some cids') => (updateS st' id (.el tg cls attrs cids'), true)
      | (st', none) => (st', false)
    | _ => (st, true)

/-- Run a sequence of mutating passes over the working copy, stopping at
the first failing pass. -/
def runPasses (ps : List (Store → Nat → Option (Except Unit (List Char))))
    (fuel : Nat) (st : Store) (root : Nat) : Store × Bool :=
  match ps with
  | [] => (st, true)
  | p :: rest =>
    match mutPass p fuel st root with
    | (st1, true) => runPasses rest fuel st1 root
    | (st1, false) => (st1, false)

/-- Tag test on a heap node object. -/
def isElTag (t : List Char) : NData → Bool
  | .el tg _ _ _ => tg = t
  | .txt _ => false

/-- Class test on a heap node object. -/
def hasClassD (c : List Char) : NData → Bool
  | .el _ cls _ _ => cls.contains c
  | .txt _ => false

/-- Heap-level ruby replacement: decided on the current heap by
reflecting the ruby subtree and applying the shared `rubyRepl`. -/
def rubyReplS (major : List Char) (fuel : Nat) (st : Store) (k : Nat) :
    Option (Except Unit (List Char)) :=
  match lookupS st k with
  | some d =>
    if isElTag (S "ruby") d then
      some (match treeAt fuel st k with
        | some n => rubyRepl major n
        | none => .error ())
    else none
  | none => none

/-- Heap-level gaiji replacement of `book_texts.extract_text`. -/
def gaijiReplSBT (st : Store) (k : Nat) : Option (Except Unit (List Char)) :=
  match lookupS st k with
  | some (.el tg cls attrs _) =>
    if tg = S "img" && cls.contains (S "gaiji") then
      some (match (attrs.find? (fun p => p.1 = S "alt")).map (·.2) with
        | none => .error ()
        | some alt =>
          match findUnicodeMarker alt with
          | some v => if h : v.isValidChar then .ok [Char.ofNatAux v h] else .error ()
          | none => .ok ['�'])
    else none
  | _ => none

/-- Heap-level gaiji replacement of `bookParser.extract_text`:
unconditionally U+FFFD. -/
def gaijiReplSBP (st : Store) (k : Nat) : Option (Except Unit (List Char)) :=
  match lookupS st k with
  | some d => if isElTag (S "img") d && hasClassD (S "gaiji") d then some (.ok ['�']) else none
  | none => none

/-- Heap-level replacement removing remaining images. -/
def imgReplS (st : Store) (k : Nat) : Option (Except Unit (List Char)) :=
  match lookupS st k with
  | some d => if isElTag (S "img") d then some (.ok []) else none
  | none => none

/-- Heap-level replacement removing note spans. -/
def notesReplS (st : Store) (k : Nat) : Option (Except Unit (List Char)) :=
  match lookupS st k with
  | some d => if isElTag (S "span") d && hasClassD (S "notes") d then some (.ok []) else none
  | none => none

/-- Heap-level replacement removing lone-newline strings. -/
def nlStrReplS (st : Store) (k : Nat) : Option (Except Unit (List Char)) :=
  match lookupS st k with
  | some (.txt s) => if s = ['\n'] then some (.ok []) else none
  | _ => none

/-- Heap-level replacement turning `br` elements into newlines. -/
def brReplS (st : Store) (k : Nat) : Option (Except Unit (List Char)) :=
  match lookupS st k with
  | some d => if isElTag (S "br") d then some (.ok ['\n']) else none
  | none => none

/-- Heap-semantics embedding of `book_texts.extract_text`: deep-copy the
argument subtree, run the six rewrite passes mutably on the copy, then
flatten and normalize.  The final heap is returned alongside the result
so that the caller-visible effect on every pre-existing node can be
stated. -/
def extract_textST_texts (st : Store) (root : Nat) (major : List Char) (fuel : Nat) :
    Store × Except Unit (List Char) :=
  let c := deepcopyS st root fuel
  let r := runPasses
    [rubyReplS major fuel, gaijiReplSBT, imgReplS, notesReplS, nlStrReplS, brReplS]
    fuel c.1 c.2
  if r.2 then
    (r.1, .ok (Normalizers.normalize_text
      (match treeAt fuel r.1 c.2 with
       | some n => textOf n
       | none => [])))
  else (r.1, .error ())

/-- Heap-semantics embedding of `bookParser.extract_text`. -/
def extract_textST_bp (st : Store) (root : Nat) (major : List Char) (fuel : Nat) :
    Store × Except Unit (List Char) :=
  let c := deepcopyS st root fuel
  let r := runPasses
    [rubyReplS major fuel, gaijiReplSBP, imgReplS, notesReplS, nlStrReplS, brReplS]
    fuel c.1 c.2
  if r.2 then
    (r.1, .ok (Uni.nfkc (Normalizers.cleanLines (Normalizers.applyReplaces (Uni.nfc
      (match treeAt fuel r.1 c.2 with
       | some n => textOf n
       | none => []))))))
  else (r.1, .error ())

end StoreM

section C9Defs

open Html StoreM

/-- Child references of a heap node object. -/
def childIds : NData → List Nat
  | .txt _ => []
  | .el _ _ _ cids => cids

/-- Heap well-formedness: every allocated identity is below the
allocation counter. -/
def wfS (st : Store) : Prop :=
  ∀ e ∈ st.entries, e.1 < st.next

/-- All node objects at identities at or above `N` refer only to
children at or above `N`. -/
def closedGE (N : Nat) (st : Store) : Prop :=
  ∀ k d, lookupS st k = some d → N ≤ k → ∀ c ∈ childIds d, N ≤ c

/-- The invariant carried through the mutating passes: the watermark `N`
is at most the allocation counter, the heap is well formed, and the
region at or above `N` is closed under child references. -/
def StoreInv (N : Nat) (st : Store) : Prop :=
  N ≤ st.next ∧ wfS st ∧ closedGE N st

/-- One evaluation step is harmless below the watermark: the invariant
is preserved and every identity below `N` still dereferences as
before. -/
def StepOK (N : Nat) (st st' : Store) : Prop :=
  StoreInv N st' ∧ ∀ k, k < N → lookupS st' k = lookupS st k

end C9Defs

namespace Fix

open Html Build StoreM

/-- A gaiji image with the given accessible text. -/
def gaijiImg (alt : List Char) : Node :=
  .elem (S "img") [S "gaiji"] [(S "alt", alt)] []

/-- A main-text fragment holding a single gaiji image. -/
def gaijiFrag (alt : List Char) : Node :=
  .elem (S "div") [S "main_text"] [] [gaijiImg alt]

/-- The accessible text of the glyph-substitution example. -/
def altU3031 : List Char := S "gaiji U+3031 mark"

/-- A ruby group with base text and annotation. -/
def rubyNode (base ann : List Char) : Node :=
  .elem (S "ruby") [] []
    [.elem (S "rb") [] [] [.text base], .elem (S "rt") [] [] [.text ann]]

/-- A ruby group with an annotation child only (no base-reading child). -/
def rubyOnlyRt (ann : List Char) : Node :=
  .elem (S "ruby") [] [] [.elem (S "rt") [] [] [.text ann]]

/-- A main-text fragment whose single ruby group has no `rb` child. -/
def badRubyFrag : Node :=
  .elem (S "div") [S "main_text"] [] [rubyOnlyRt (S "かんじ")]

/-- A main-text fragment whose ruby group carries both children. -/
def goodRubyFrag : Node :=
  .elem (S "div") [S "main_text"] [] [rubyNode (S "漢字") (S "かんじ")]

/-- An end-matter (colophon) container. -/
def biDiv : Node :=
  .elem (S "div") [S "bibliographical_information"] [] [.text (S "colo")]

/-- A well-formed document: one main text, one colophon. -/
def soupOne : Node :=
  .elem (S "html") [] []
    [.elem (S "div") [S "main_text"] [] [.text (S "body")], biDiv]

/-- The main-text node of `soupOne` and `soupTwo`. -/
def mainOne : Node :=
  .elem (S "div") [S "main_text"] [] [.text (S "body")]

/-- A document with two end-matter containers of the same kind. -/
def soupTwo : Node :=
  .elem (S "html") [] [] [mainOne, biDiv, biDiv]

/-- A document with no main-text container. -/
def soupNoMain : Node :=
  .elem (S "html") [] [] [biDiv]

/-- Commit stamp used by the concrete build-run fixtures. -/
def stamp0 : MetaRow := ⟨S "1.0.1", S "deadbeef", S "2026-01-01 00:00:00 +0000"⟩

/-- A discovered file whose book parses with no license URL. -/
def fileNoLicense : FileEntry :=
  ⟨1, 100, 1, S "card", .book none (S "payload")⟩

/-- A discovered file whose license is CC BY-ND. -/
def fileND : FileEntry :=
  ⟨1, 101, 1, S "card", .book (some (S "https://creativecommons.org/licenses/by-nd/2.1/jp/")) (S "p")⟩

/-- A discovered file whose license is CC BY. -/
def fileBY : FileEntry :=
  ⟨1, 102, 1, S "card", .book (some (S "https://creativecommons.org/licenses/by/2.1/jp/")) (S "p")⟩

/-- A discovered file whose license is CC BY-SA. -/
def fileSA : FileEntry :=
  ⟨1, 103, 1, S "card", .book (some (S "https://creativecommons.org/licenses/by-sa/2.1/jp/")) (S "p")⟩

/-- A one-node heap for the mutation witness. -/
def store0 : Store := ⟨[(0, .txt (S "x"))], 1⟩

end Fix

namespace Html

mutual

/-- Property that every ruby group in a tree has a descendant with the
requested major tag (the condition under which the ruby pass cannot
raise). -/
def rubyOk (major : List Char) : Node → Bool
  | .text _ => true
  | .elem tg _ _ cs =>
    (if tg = S "ruby" then (findDescList (tagIs major) cs).isSome else true)
      && rubyOkList major cs

/-- List form of `rubyOk`. -/
def rubyOkList (major : List Char) : List Node → Bool
  | [] => true
  | n :: ns => rubyOk major n && rubyOkList major ns

end

/-- The main-text container search of `parse_book`. -/
def mainFind (soup : Node) : Option Node :=
  findDesc (divClass (S "main_text")) soup

/-- Presence of a `bibliographical_information` container. -/
def biPresent (soup : Node) : Bool :=
  (findDesc (divClass (S "bibliographical_information")) soup).isSome

/-- Presence of an `after_text` container. -/
def atPresent (soup : Node) : Bool :=
  (findDesc (divClass (S "after_text")) soup).isSome

/-- Number of end-matter containers (of either kind) in a document. -/
def endMatterCount (soup : Node) : Nat :=
  countDesc (fun n =>
    divClass (S "bibliographical_information") n || divClass (S "after_text") n) soup

/-- Absence of the license-anchor failure mode: if a `rel="license"`
anchor exists it carries an `href`. -/
def licenseOkB (soup : Node) : Bool :=
  match findDesc isLicenseAnchor soup with
  | none => true
  | some a => (attrLookup (S "href") a).isSome

/-- A character that passes through `normalize_text` unchanged when it is
the whole text: not whitespace and not the legacy substitution mark. -/
def survivesNormalize (c : Char) : Bool :=
  !PyStr.isPySpace c && c ≠ '※'

end Html

section OccursDefs

open PyStr Uni

/-- Adjacent characters of a composed string never compose further. -/
def NoPair (s : List Char) : Prop :=
  List.Chain' (fun a b => composePair a b = none) s

/-- A character that takes part in no composition and no decomposition:
safe to insert or sit adjacent to anything without disturbing NFC. -/
def inertCh (c : Char) : Prop :=
  (∀ x, composePair c x = none) ∧ (∀ x, composePair x c = none) ∧ decompChar c = [c]

/-- Whether `pat` occurs as a contiguous substring. -/
def hasOcc (pat : List Char) : List Char → Bool
  | [] => pat.isEmpty
  | c :: cs => pat.isPrefixOf (c :: cs) || hasOcc pat cs

end OccursDefs

section BuildDefs

open PyStr Build

/-- Whether the per-file loop would insert a row for this file when its
revision key is new: the parse produced a book and the license passes. -/
def insertable (f : FileEntry) : Bool :=
  match f.outcome with
  | .book lic _ => licenseAllows lic
  | _ => false

/-- One database extends another by appended card and book rows. -/
def Extends (db db' : DB) : Prop :=
  (∃ t, db'.cards = db.cards ++ t) ∧ (∃ u, db'.books = db.books ++ u)

end BuildDefs


section BuildLemmas

open PyStr Build

theorem ensureCard_books (db : DB) (f : FileEntry) :
    (ensureCard db f).1.books = db.books := by
  unfold ensureCard
  cases findCard db f.major_key <;> rfl

theorem ensureCard_metadata (db : DB) (f : FileEntry) :
    (ensureCard db f).1.metadata = db.metadata := by
  unfold ensureCard
  cases findCard db f.major_key <;> rfl

theorem get?_of_le_length {α : Type} (l : List α) (h : 5 ≤ l.length) :
    ∃ x, l.get? 4 = some x := by
  cases hx : l.get? 4 with
  | some x => exact ⟨x, rfl⟩
  | none => exact absurd (List.get?_eq_none.1 hx) (by omega)

end BuildLemmas

section C4Claim

open PyStr Uni Normalizers

/-- C4: the claim states that `normalize_reading` maps "ヴァイオリン" and
"ばいおりん" to one common key.  The code does not: the small-kana fold
(ァ→ア) is applied before the ヴァ→バ digraph fold because of the dict's
insertion order, so the ヴァ entry can never match; ヴ alone then folds
to ブ, and the two results differ in their first character (フ vs ハ).
This theorem evaluates the embedded `normalize_reading` at the claim's
two inputs and shows the results. -/
theorem normalize_reading_vaiolin_ne :
    normalize_reading (String.toList "ヴァイオリン") = String.toList "フアイオリン" ∧
    normalize_reading (String.toList "ばいおりん") = String.toList "ハイオリン" ∧
    normalize_reading (String.toList "ヴァイオリン") ≠
      normalize_reading (String.toList "ばいおりん") := by
  exact ⟨by decide, by decide, by decide⟩

end C4Claim

section C6Claim

open PyStr Build Html Fix

/-- C6: the license-policy filter excludes exactly the completed records
whose Creative-Commons path segment (the fifth `/`-separated field of
the URL, as indexed by the source) contains an "nd" or "sa" term: for a
parsed book with a license URL of at least five fields and a fresh
`(card_id, minor_key)`, a row is inserted iff the segment's terms avoid
"nd" and "sa"; concretely, `.../by-nd/...` and `.../by-sa/...` are
skipped with no row, and `.../by/...` is inserted. -/
theorem license_filter_nd_sa :
    (∀ (db : DB) (f : FileEntry) (url payload : List Char),
      f.outcome = .book (some url) payload →
      keyPresent (ensureCard db f).1 (ensureCard db f).2 f.minor_key = false →
      5 ≤ (pysplit '/' url).length →
      ((processFile db f).books.length = db.books.length + 1 ↔
        licenseRestrictive url = some false)) ∧
    (processFile emptyDB fileND).books = [] ∧
    (processFile emptyDB fileSA).books = [] ∧
    (processFile emptyDB fileBY).books.map (fun b => b.license) =
      [some (S "https://creativecommons.org/licenses/by/2.1/jp/")] := by
  refine ⟨?_, by decide, by decide, by decide⟩
  intro db f url payload hout hk h5
  obtain ⟨seg, hseg⟩ := get?_of_le_length _ h5
  have hlr : licenseRestrictive url =
      some (((pysplit '-' seg).map (fun t => t.map Char.toLower)).contains (S "nd") ||
        ((pysplit '-' seg).map (fun t => t.map Char.toLower)).contains (S "sa")) := by
    unfold licenseRestrictive
    rw [hseg]
  have hla : licenseAllows (some url) =
      !(((pysplit '-' seg).map (fun t => t.map Char.toLower)).contains (S "nd") ||
        ((pysplit '-' seg).map (fun t => t.map Char.toLower)).contains (S "sa")) := by
    simp only [licenseAllows]
    rw [hlr]
  simp only [processFile, hout, hk, Bool.false_eq_true, if_false, hla, hlr]
  cases hb : (((pysplit '-' seg).map (fun t => t.map Char.toLower)).contains (S "nd") ||
      ((pysplit '-' seg).map (fun t => t.map Char.toLower)).contains (S "sa")) with
  | true =>
    simp only [Bool.not_true, Bool.false_eq_true, if_false, ensureCard_books]
    constructor
    · intro hlen
      omega
    · intro hfalse
      simp at hfalse
  | false =>
    simp [ensureCard_books]

end C6Claim

section C10Claim

open Html Fix

mutual

theorem rubyPass_ok (major : List Char) (t : Node) (h : rubyOk major t = true) :
    ∃ t', rewriteE (tagIs (S "ruby")) (rubyRepl major) t = .ok t' := by
  match t with
  | .text s => exact ⟨.text s, rfl⟩
  | .elem tg cls attrs cs =>
    have hl : rubyOkList major cs = true := by
      unfold rubyOk at h
      rw [Bool.and_eq_true] at h
      exact h.2
    obtain ⟨cs', hcs⟩ := rubyPassList_ok major cs hl
    refine ⟨.elem tg cls attrs cs', ?_⟩
    unfold rewriteE
    rw [hcs]
    rfl

theorem rubyPassList_ok (major : List Char) (ns : List Node)
    (h : rubyOkList major ns = true) :
    ∃ ns', rewriteEList (tagIs (S "ruby")) (rubyRepl major) ns = .ok ns' := by
  match ns with
  | [] => exact ⟨[], rfl⟩
  | n :: ns =>
    have hpair : rubyOk major n = true ∧ rubyOkList major ns = true := by
      unfold rubyOkList at h
      rw [Bool.and_eq_true] at h
      exact h
    obtain ⟨ns', hns'⟩ := rubyPassList_ok major ns hpair.2
    by_cases hm : tagIs (S "ruby") n = true
    · match n, hm with
      | .elem tg cls attrs cs, hm =>
        have htg : tg = S "ruby" := by
          unfold tagIs at hm
          exact of_decide_eq_true hm
        have hfind : (findDescList (tagIs major) cs).isSome = true := by
          have h1 := hpair.1
          unfold rubyOk at h1
          rw [Bool.and_eq_true] at h1
          have h2 := h1.1
          rw [if_pos htg] at h2
          exact h2
        obtain ⟨m, hmfind⟩ := Option.isSome_iff_exists.1 hfind
        have hrepl : rubyRepl major (.elem tg cls attrs cs) = .ok (textOf m) := by
          unfold rubyRepl findDesc
          rw [hmfind]
        refine ⟨.text (textOf m) :: ns', ?_⟩
        unfold rewriteEList
        rw [if_pos hm, hrepl, hns']
        rfl
    · obtain ⟨n', hn'⟩ := rubyPass_ok major n hpair.1
      refine ⟨n' :: ns', ?_⟩
      unfold rewriteEList
      rw [if_neg hm, hn', hns']
      rfl

end

/-- C10: `extract_text` is partial at ruby nodes.  For every fragment in
which each ruby group has a descendant with the requested major tag the
ruby-rewrite pass succeeds, while the concrete fragment whose only ruby
group carries an `rt` child but no `rb` child makes
`book_texts.extract_text` (queried in `rb`-major mode) raise instead of
returning a value. -/
theorem ruby_rewrite_partial :
    (∀ (major : List Char) (t : Node), rubyOk major t = true →
      ∃ t', rubyPass major t = .ok t') ∧
    book_texts.extract_text badRubyFrag (S "rb") = .error () := by
  exact ⟨fun major t h => rubyPass_ok major t h, rfl⟩

/-- C10 witness: the success half applied at a concrete fragment whose
ruby group carries both children. -/
theorem ruby_rewrite_partial_witness :
    rubyOk (S "rb") goodRubyFrag = true ∧
    ∃ t', rubyPass (S "rb") goodRubyFrag = .ok t' :=
  ⟨by decide, ruby_rewrite_partial.1 (S "rb") goodRubyFrag (by decide)⟩

end C10Claim

section C7Claim

open Html Fix

theorem ebind_ok {α β : Type} (a : α) (f : α → Except Unit β) :
    (do let x ← Except.ok a; f x) = f a := rfl

theorem ebind_err {ε α β : Type} (e : ε) (f : α → Except ε β) :
    (do let x ← Except.error e; f x) = Except.error e := rfl

theorem parse_book_some_shape (soup mt : Node)
    (h : findDesc (divClass (S "main_text")) soup = some mt) :
    bookParser.parse_book soup = (do
      let rb ← bookParser.extract_text mt (S "rb")
      let rt ← bookParser.extract_text mt (S "rt")
      let c ← extract_colophon soup
      let lic ← extract_license soup
      Except.ok (some (serialize mt, rb, rt, c.1, c.2, lic))) := by
  unfold bookParser.parse_book
  rw [h]

theorem parse_book_do_shape (soup mt : Node)
    (h : findDesc (divClass (S "main_text")) soup = some mt)
    (s1 s2 : List Char)
    (h1 : bookParser.extract_text mt (S "rb") = .ok s1)
    (h2 : bookParser.extract_text mt (S "rt") = .ok s2) :
    bookParser.parse_book soup = (do
      let c ← extract_colophon soup
      let lic ← extract_license soup
      Except.ok (some (serialize mt, s1, s2, c.1, c.2, lic))) := by
  rw [parse_book_some_shape soup mt h, h1]
  simp only [ebind_ok]
  rw [h2]
  simp only [ebind_ok]

/-- C7 (amended): `parse_book` returns `ok none` exactly when the
main-text container is absent.  When it is present and both body
extractions and the license lookup succeed, the parse succeeds iff
exactly one KIND of end-matter container is present
(`bibliographical_information` XOR `after_text`) — not iff the COUNT of
end-matter containers differs from zero and two, which the
counterexample `parse_book_two_colophons_ok` refutes. -/
theorem parse_book_null_and_colophon (soup : Node) :
    (bookParser.parse_book soup = .ok none ↔ mainFind soup = none) ∧
    (∀ mt, mainFind soup = some mt →
      (∃ s1, bookParser.extract_text mt (S "rb") = .ok s1) →
      (∃ s2, bookParser.extract_text mt (S "rt") = .ok s2) →
      licenseOkB soup = true →
      ((∃ r, bookParser.parse_book soup = .ok (some r)) ↔
        (biPresent soup ≠ atPresent soup))) := by
  constructor
  · cases h : mainFind soup with
    | none =>
      unfold mainFind at h
      unfold bookParser.parse_book
      rw [h]
      simp
    | some mt =>
      unfold mainFind at h
      constructor
      · intro habs
        rw [parse_book_some_shape soup mt h] at habs
        cases hrb : bookParser.extract_text mt (S "rb") with
        | error e =>
          rw [hrb] at habs
          simp only [ebind_err] at habs
          exact Except.noConfusion habs
        | ok s1 =>
          rw [hrb] at habs
          simp only [ebind_ok] at habs
          cases hrt : bookParser.extract_text mt (S "rt") with
          | error e =>
            rw [hrt] at habs
            simp only [ebind_err] at habs
            exact Except.noConfusion habs
          | ok s2 =>
            rw [hrt] at habs
            simp only [ebind_ok] at habs
            cases hc : extract_colophon soup with
            | error e =>
              rw [hc] at habs
              simp only [ebind_err] at habs
              exact Except.noConfusion habs
            | ok c =>
              rw [hc] at habs
              simp only [ebind_ok] at habs
              cases hl : extract_license soup with
              | error e =>
                rw [hl] at habs
                simp only [ebind_err] at habs
                exact Except.noConfusion habs
              | ok lic =>
                rw [hl] at habs
                simp only [ebind_ok] at habs
                exact Option.noConfusion (Except.ok.inj habs)
      · intro habs
        exact Option.noConfusion habs
  · intro mt h h1ex h2ex hlic
    obtain ⟨s1, h1⟩ := h1ex
    obtain ⟨s2, h2⟩ := h2ex
    unfold mainFind at h
    rw [parse_book_do_shape soup mt h s1 s2 h1 h2]
    unfold biPresent atPresent
    cases hbi : findDesc (divClass (S "bibliographical_information")) soup with
    | none =>
      cases hat : findDesc (divClass (S "after_text")) soup with
      | none =>
        have hc : extract_colophon soup = .error () := by
          simp only [extract_colophon, hbi, hat]
        rw [hc]
        simp only [ebind_err]
        simp
      | some c =>
        have hc : extract_colophon soup =
            .ok (serialize c, Normalizers.cleanLines (textOf c)) := by
          simp only [extract_colophon, hbi, hat]
        rw [hc]
        simp only [ebind_ok]
        unfold licenseOkB at hlic
        cases hanchor : findDesc isLicenseAnchor soup with
        | none =>
          have hl : extract_license soup = .ok none := by
            simp only [extract_license, hanchor]
          rw [hl]
          simp only [ebind_ok]
          simp
        | some a =>
          rw [hanchor] at hlic
          obtain ⟨href, hhref⟩ := Option.isSome_iff_exists.1 hlic
          have hl : extract_license soup = .ok (some href) := by
            simp only [extract_license, hanchor, hhref]
          rw [hl]
          simp only [ebind_ok]
          simp
    | some c =>
      cases hat : findDesc (divClass (S "after_text")) soup with
      | none =>
        have hc : extract_colophon soup =
            .ok (serialize c, Normalizers.cleanLines (textOf c)) := by
          simp only [extract_colophon, hbi, hat]
        rw [hc]
        simp only [ebind_ok]
        unfold licenseOkB at hlic
        cases hanchor : findDesc isLicenseAnchor soup with
        | none =>
          have hl : extract_license soup = .ok none := by
            simp only [extract_license, hanchor]
          rw [hl]
          simp only [ebind_ok]
          simp
        | some a =>
          rw [hanchor] at hlic
          obtain ⟨href, hhref⟩ := Option.isSome_iff_exists.1 hlic
          have hl : extract_license soup = .ok (some href) := by
            simp only [extract_license, hanchor, hhref]
          rw [hl]
          simp only [ebind_ok]
          simp
      | some d =>
        have hc : extract_colophon soup = .error () := by
          simp only [extract_colophon, hbi, hat]
        rw [hc]
        simp only [ebind_err]
        simp

end C7Claim

open Html Fix in
/-- C7 counterexample: a document holding TWO end-matter containers (both
of the `bibliographical_information` kind) parses successfully, refuting
the claim that a fatal parse error is raised exactly when the number of
end-matter containers found is zero or two. -/
theorem parse_book_two_colophons_ok :
    endMatterCount soupTwo = 2 ∧
    ∃ r, bookParser.parse_book soupTwo = .ok (some r) :=
  ⟨by decide, ⟨_, rfl⟩⟩

open Html Fix in
/-- C7 witness: the amended theorem applied at a skip document (no main
text) and at a well-formed one-colophon document. -/
theorem parse_book_null_and_colophon_witness :
    bookParser.parse_book soupNoMain = .ok none ∧
    ((∃ r, bookParser.parse_book soupOne = .ok (some r)) ↔
      (biPresent soupOne ≠ atPresent soupOne)) :=
  ⟨(parse_book_null_and_colophon soupNoMain).1.mpr rfl,
   (parse_book_null_and_colophon soupOne).2 mainOne rfl ⟨_, rfl⟩ ⟨_, rfl⟩ rfl⟩


section C1Claim

open Html Fix PyStr Uni Normalizers

theorem compTable_comp : ∀ e ∈ Uni.compTable, composePair e.a e.b = some e.c := by decide

theorem composeAdj_pair (a b x : Char) (h : composePair a b = some x) :
    composeAdj [a, b] = [x] := by
  simp only [composeAdj]
  rw [h]

theorem nfc_single (c : Char) : nfc [c] = [c] := by
  unfold nfc decompAll
  simp only [List.map, List.flatten]
  rw [List.append_nil]
  cases hfind : Uni.compTable.find? (fun e => e.c = c) with
  | none =>
    have hd : decompChar c = [c] := by
      unfold decompChar
      rw [hfind]
    rw [hd]
    rfl
  | some e =>
    have hd : decompChar c = [e.a, e.b] := by
      unfold decompChar
      rw [hfind]
    have hmem : e ∈ Uni.compTable := List.mem_of_find?_eq_some hfind
    have hec : e.c = c := by
      have := List.find?_some hfind
      exact of_decide_eq_true this
    have hcomp := compTable_comp e hmem
    rw [hd, composeAdj_pair e.a e.b e.c hcomp, hec]

theorem replaceSub_single_nomatch (pat rep : List Char) (c : Char)
    (h : pat.isPrefixOf [c] = false) : replaceSub pat rep [c] = [c] := by
  unfold replaceSub replaceGo
  rw [if_neg]
  · rfl
  · intro hcon
    rw [h] at hcon
    exact Bool.noConfusion hcon.2

theorem normalize_text_single (c : Char) (h1 : isPySpace c = false) (h2 : c ≠ '※') :
    normalize_text [c] = [c] := by
  have hn : c ≠ '\n' := by
    intro he
    rw [he] at h1
    exact Bool.noConfusion h1
  have hp1 : (['※'] : List Char).isPrefixOf [c] = false := by
    simp [List.isPrefixOf]
    intro he
    exact absurd he.symm h2
  have hp2 : (['／', '＼'] : List Char).isPrefixOf [c] = false := by
    simp [List.isPrefixOf]
  have hp3 : (['／', '″', '＼'] : List Char).isPrefixOf [c] = false := by
    simp [List.isPrefixOf]
  have hrep : applyReplaces [c] = [c] := by
    unfold applyReplaces replaceTexts
    simp only [List.foldl]
    rw [replaceSub_single_nomatch _ _ _ hp1, replaceSub_single_nomatch _ _ _ hp2,
      replaceSub_single_nomatch _ _ _ hp3]
  unfold normalize_text
  rw [nfc_single, hrep]
  unfold cleanLines
  have hsplit : pysplit '\n' [c] = [[c]] := by
    simp only [pysplit]
    rw [if_neg hn]
  rw [hsplit]
  simp only [List.map]
  have hstrip : pystrip [c] = [c] := by
    unfold pystrip
    simp [h1]
  rw [hstrip]
  simp only [List.filter]
  rfl

end C1Claim

section C1Main

open Html Fix PyStr Uni Normalizers

/-- C1 (amended): only `book_texts.extract_text` resolves `U+<hex>`
markers.  For a main-text fragment holding one gaiji image with
accessible text `alt`: if `alt` carries a marker naming a code point
that survives normalization untouched, the output is exactly that code
point; if no marker is present, the output is U+FFFD.
`bookParser.extract_text` — the extractor `build.py` actually uses —
substitutes U+FFFD regardless (see the counterexample). -/
theorem gaiji_marker_substitution (alt : List Char) :
    (∀ (v : Nat) (hv : v.isValidChar), findUnicodeMarker alt = some v →
      survivesNormalize (Char.ofNatAux v hv) = true →
      book_texts.extract_text (gaijiFrag alt) (S "rb") = .ok [Char.ofNatAux v hv]) ∧
    (findUnicodeMarker alt = none →
      book_texts.extract_text (gaijiFrag alt) (S "rb") = .ok ['�']) := by
  have hruby : rubyPass (S "rb") (gaijiFrag alt) = .ok (gaijiFrag alt) := rfl
  constructor
  · intro v hv hm hs
    have hsp : isPySpace (Char.ofNatAux v hv) = false ∧ Char.ofNatAux v hv ≠ '※' := by
      unfold survivesNormalize at hs
      rw [Bool.and_eq_true] at hs
      refine ⟨?_, of_decide_eq_true hs.2⟩
      have := hs.1
      rw [Bool.not_eq_true'] at this
      exact this
    set c := Char.ofNatAux v hv with hc
    have hcn : c ≠ '\n' := by
      intro he
      have := hsp.1
      rw [he] at this
      exact Bool.noConfusion this
    have hrepl : book_texts.gaijiRepl (gaijiImg alt) = .ok [c] := by
      unfold book_texts.gaijiRepl
      have hattr : attrLookup (S "alt") (gaijiImg alt) = some alt := rfl
      simp only [hattr, hm]
      rw [dif_pos hv]
    have hpass : rewriteE isGaiji book_texts.gaijiRepl (gaijiFrag alt) =
        .ok (.elem (S "div") [S "main_text"] [] [.text [c]]) := by
      show rewriteE isGaiji book_texts.gaijiRepl
          (.elem (S "div") [S "main_text"] [] [gaijiImg alt]) = _
      unfold rewriteE rewriteEList
      rw [if_pos (show isGaiji (gaijiImg alt) = true from rfl), hrepl]
      rfl
    have hnl : isNewlineString (.text [c]) = false := by
      unfold isNewlineString
      simp [hcn]
    have hnlpass : rewriteT isNewlineString []
        (.elem (S "div") [S "main_text"] [] [.text [c]]) =
        .elem (S "div") [S "main_text"] [] [.text [c]] := by
      unfold rewriteT rewriteTList rewriteTList
      rw [hnl]
      rfl
    unfold book_texts.extract_text
    rw [hruby]
    rw [ebind_ok]
    rw [hpass, ebind_ok]
    show Except.ok (normalize_text (textOf (rewriteT (tagIs (S "br")) ['\n']
      (rewriteT isNewlineString [] (rewriteT isNotes []
        (rewriteT (tagIs (S "img")) [] (.elem (S "div") [S "main_text"] [] [.text [c]]))))))) = _
    have himg : rewriteT (tagIs (S "img")) []
        (Node.elem (S "div") [S "main_text"] [] [.text [c]]) =
        Node.elem (S "div") [S "main_text"] [] [.text [c]] := rfl
    have hnotes : rewriteT isNotes []
        (Node.elem (S "div") [S "main_text"] [] [.text [c]]) =
        Node.elem (S "div") [S "main_text"] [] [.text [c]] := rfl
    have hbr : rewriteT (tagIs (S "br")) ['\n']
        (Node.elem (S "div") [S "main_text"] [] [.text [c]]) =
        Node.elem (S "div") [S "main_text"] [] [.text [c]] := rfl
    rw [himg, hnotes, hnlpass, hbr]
    have htext : textOf (Node.elem (S "div") [S "main_text"] [] [.text [c]]) = [c] := rfl
    rw [htext, normalize_text_single c hsp.1 hsp.2]
  · intro hm
    have hrepl : book_texts.gaijiRepl (gaijiImg alt) = .ok ['�'] := by
      unfold book_texts.gaijiRepl
      have hattr : attrLookup (S "alt") (gaijiImg alt) = some alt := rfl
      simp only [hattr, hm]
    have hpass : rewriteE isGaiji book_texts.gaijiRepl (gaijiFrag alt) =
        .ok (.elem (S "div") [S "main_text"] [] [.text ['�']]) := by
      show rewriteE isGaiji book_texts.gaijiRepl
          (.elem (S "div") [S "main_text"] [] [gaijiImg alt]) = _
      unfold rewriteE rewriteEList
      rw [if_pos (show isGaiji (gaijiImg alt) = true from rfl), hrepl]
      rfl
    unfold book_texts.extract_text
    rw [hruby, ebind_ok, hpass, ebind_ok]
    rfl

end C1Main

open Html Fix in
/-- C1 counterexample: in `bookParser.extract_text` (the extractor the
build orchestrator imports), a gaiji image whose accessible text
contains the marker `U+3031` is replaced by U+FFFD, not by code point
U+3031, refuting the claim as stated over both extractors. -/
theorem gaiji_marker_ignored_by_bp :
    findUnicodeMarker altU3031 = some 0x3031 ∧
    bookParser.extract_text (gaijiFrag altU3031) (S "rb") = .ok ['�'] ∧
    (['�'] : List Char) ≠ ['〱'] :=
  ⟨by decide, rfl, by decide⟩

open Html Fix in
/-- C1 witness: the amended theorem applied at the claim's concrete
marker, `U+3031`, and at a markerless accessible text. -/
theorem gaiji_marker_substitution_witness :
    book_texts.extract_text (gaijiFrag altU3031) (S "rb") = .ok ['〱'] ∧
    book_texts.extract_text (gaijiFrag (S "no marker")) (S "rb") = .ok ['�'] :=
  ⟨(gaiji_marker_substitution altU3031).1 0x3031 (by decide) (by decide) (by decide),
   (gaiji_marker_substitution (S "no marker")).2 (by decide)⟩


section BuildMachinery

open PyStr Build Fix

theorem Extends.refl (db : DB) : Extends db db :=
  ⟨⟨[], (List.append_nil _).symm⟩, ⟨[], (List.append_nil _).symm⟩⟩

theorem Extends.trans {a b c : DB} (h1 : Extends a b) (h2 : Extends b c) : Extends a c := by
  obtain ⟨⟨t1, ht1⟩, ⟨u1, hu1⟩⟩ := h1
  obtain ⟨⟨t2, ht2⟩, ⟨u2, hu2⟩⟩ := h2
  exact ⟨⟨t1 ++ t2, by rw [ht2, ht1, List.append_assoc]⟩,
         ⟨u1 ++ u2, by rw [hu2, hu1, List.append_assoc]⟩⟩

theorem ensureCard_cards_extend (db : DB) (f : FileEntry) :
    ∃ t, (ensureCard db f).1.cards = db.cards ++ t := by
  unfold ensureCard
  cases findCard db f.major_key with
  | some c => exact ⟨[], (List.append_nil _).symm⟩
  | none => exact ⟨_, rfl⟩

theorem processFile_cards (db : DB) (f : FileEntry) :
    (processFile db f).cards = (ensureCard db f).1.cards := by
  unfold processFile
  by_cases hk : keyPresent (ensureCard db f).1 (ensureCard db f).2 f.minor_key = true
  · simp [hk]
  · rw [Bool.not_eq_true] at hk
    simp only [hk, Bool.false_eq_true, if_false]
    cases f.outcome with
    | failed => rfl
    | noBody => rfl
    | book lic payload =>
      by_cases hl : licenseAllows lic = true
      · simp [hl]
      · rw [Bool.not_eq_true] at hl
        simp [hl]

theorem processFile_extends (db : DB) (f : FileEntry) : Extends db (processFile db f) := by
  constructor
  · rw [processFile_cards]
    exact ensureCard_cards_extend db f
  · unfold processFile
    by_cases hk : keyPresent (ensureCard db f).1 (ensureCard db f).2 f.minor_key = true
    · simp only [hk, if_true]
      exact ⟨[], by rw [ensureCard_books, List.append_nil]⟩
    · rw [Bool.not_eq_true] at hk
      simp only [hk, Bool.false_eq_true, if_false]
      cases f.outcome with
      | failed => exact ⟨[], by rw [ensureCard_books, List.append_nil]⟩
      | noBody => exact ⟨[], by rw [ensureCard_books, List.append_nil]⟩
      | book lic payload =>
        by_cases hl : licenseAllows lic = true
        · simp only [hl, if_true]
          exact ⟨_, by rw [ensureCard_books]⟩
        · rw [Bool.not_eq_true] at hl
          simp only [hl, Bool.false_eq_true, if_false]
          exact ⟨[], by rw [ensureCard_books, List.append_nil]⟩

theorem run_cons (db : DB) (f : FileEntry) (l : List FileEntry) :
    run db (f :: l) = run (processFile db f) l := rfl

theorem run_append (db : DB) (l1 l2 : List FileEntry) :
    run db (l1 ++ l2) = run (run db l1) l2 :=
  List.foldl_append _ _ _ _

theorem run_extends (db : DB) (l : List FileEntry) : Extends db (run db l) := by
  induction l generalizing db with
  | nil => exact Extends.refl db
  | cons f t ih => exact (processFile_extends db f).trans (ih (processFile db f))

theorem findCard_mono {db db' : DB} {m : Nat} {c : CardRow}
    (h : findCard db m = some c) (he : Extends db db') : findCard db' m = some c := by
  obtain ⟨⟨t, ht⟩, _⟩ := he
  unfold findCard at h ⊢
  rw [ht, List.find?_append, h]
  rfl

theorem keyPresent_mono {db db' : DB} {cid minor : Nat}
    (h : keyPresent db cid minor = true) (he : Extends db db') :
    keyPresent db' cid minor = true := by
  obtain ⟨_, ⟨u, hu⟩⟩ := he
  unfold keyPresent at h ⊢
  rw [hu, List.any_append, h]
  rfl

theorem ensureCard_of_found {db : DB} {f : FileEntry} {c : CardRow}
    (h : findCard db f.major_key = some c) : ensureCard db f = (db, c.id) := by
  unfold ensureCard
  rw [h]

theorem processFile_card_found (db : DB) (f : FileEntry) :
    ∃ c, findCard (processFile db f) f.major_key = some c ∧ (ensureCard db f).2 = c.id := by
  cases hfc : findCard db f.major_key with
  | some c =>
    refine ⟨c, findCard_mono hfc (processFile_extends db f), ?_⟩
    rw [ensureCard_of_found hfc]
  | none =>
    refine ⟨⟨nextCardId db, f.major_key, f.cardPayload⟩, ?_, ?_⟩
    · have hcards : (processFile db f).cards =
          db.cards ++ [⟨nextCardId db, f.major_key, f.cardPayload⟩] := by
        rw [processFile_cards]
        unfold ensureCard
        rw [hfc]
      unfold findCard at hfc ⊢
      rw [hcards, List.find?_append, hfc]
      simp [List.find?]
    · unfold ensureCard
      rw [hfc]

theorem processFile_key_after (db : DB) (f : FileEntry) (hins : insertable f = true) :
    keyPresent (processFile db f) (ensureCard db f).2 f.minor_key = true := by
  unfold processFile
  by_cases hk : keyPresent (ensureCard db f).1 (ensureCard db f).2 f.minor_key = true
  · simp [hk]
  · rw [Bool.not_eq_true] at hk
    simp only [hk, Bool.false_eq_true, if_false]
    unfold insertable at hins
    cases ho : f.outcome with
    | failed => rw [ho] at hins; exact Bool.noConfusion hins
    | noBody => rw [ho] at hins; exact Bool.noConfusion hins
    | book lic payload =>
      rw [ho] at hins
      have hins' : licenseAllows lic = true := hins
      simp only [ho, hins', if_true]
      unfold keyPresent
      rw [List.any_append]
      simp

theorem processFile_stable {db : DB} {f : FileEntry} {c : CardRow}
    (hfc : findCard db f.major_key = some c)
    (hk : keyPresent db c.id f.minor_key = true ∨ insertable f = false) :
    processFile db f = db := by
  unfold processFile
  rw [ensureCard_of_found hfc]
  cases hk with
  | inl hk => simp [hk]
  | inr hni =>
    by_cases hkp : keyPresent db c.id f.minor_key = true
    · simp [hkp]
    · rw [Bool.not_eq_true] at hkp
      simp only [hkp, Bool.false_eq_true, if_false]
      unfold insertable at hni
      cases ho : f.outcome with
      | failed => rfl
      | noBody => rfl
      | book lic payload =>
        rw [ho] at hni
        have hni' : licenseAllows lic = false := hni
        simp [hni']

theorem processFile_step_stable (db : DB) (g : FileEntry) (t : List FileEntry) :
    processFile (run (processFile db g) t) g = run (processFile db g) t := by
  obtain ⟨c, hc, hcid⟩ := processFile_card_found db g
  have hext : Extends (processFile db g) (run (processFile db g) t) :=
    run_extends (processFile db g) t
  have hfcS : findCard (run (processFile db g) t) g.major_key = some c :=
    findCard_mono hc hext
  cases hins : insertable g with
  | true =>
    have hk1 : keyPresent (processFile db g) c.id g.minor_key = true := by
      rw [← hcid]
      exact processFile_key_after db g hins
    exact processFile_stable hfcS (Or.inl (keyPresent_mono hk1 hext))
  | false =>
    exact processFile_stable hfcS (Or.inr hins)

theorem run_id (S : DB) (l : List FileEntry) (h : ∀ f ∈ l, processFile S f = S) :
    run S l = S := by
  induction l with
  | nil => rfl
  | cons f t ih =>
    rw [run_cons, h f (List.mem_cons_self f t)]
    exact ih (fun g hg => h g (List.mem_cons_of_mem f hg))

theorem processFile_mem_stable (db : DB) (l : List FileEntry) (f : FileEntry)
    (hf : f ∈ l) : processFile (run db l) f = run db l := by
  induction l generalizing db with
  | nil => exact absurd hf (List.not_mem_nil f)
  | cons g t ih =>
    rw [run_cons]
    cases List.mem_cons.1 hf with
    | inl heq =>
      subst heq
      exact processFile_step_stable db f t
    | inr hmem => exact ih (processFile db g) hmem

theorem run_stable (db : DB) (l : List FileEntry) : run (run db l) l = run db l :=
  run_id (run db l) l (fun f hf => processFile_mem_stable db l f hf)

end BuildMachinery

section BuildClaims

open PyStr Build Fix

theorem keyPresent_ensureCard (db : DB) (f : FileEntry) (x y : Nat) :
    keyPresent (ensureCard db f).1 x y = keyPresent db x y := by
  unfold keyPresent
  rw [ensureCard_books]

theorem processFile_books_cases (db : DB) (f : FileEntry) :
    (processFile db f).books = db.books ∨
    (∃ lic payload, (processFile db f).books =
      db.books ++ [⟨(ensureCard db f).2, f.minor_key, lic, payload⟩]) ∧
      keyPresent db (ensureCard db f).2 f.minor_key = false := by
  unfold processFile
  by_cases hk : keyPresent (ensureCard db f).1 (ensureCard db f).2 f.minor_key = true
  · left
    simp only [hk, if_true]
    rw [ensureCard_books]
  · rw [Bool.not_eq_true, keyPresent_ensureCard] at hk
    simp only [keyPresent_ensureCard, hk, Bool.false_eq_true, if_false]
    cases f.outcome with
    | failed => left; rw [ensureCard_books]
    | noBody => left; rw [ensureCard_books]
    | book lic payload =>
      by_cases hl : licenseAllows lic = true
      · right
        refine ⟨⟨lic, payload, ?_⟩, ?_⟩
        · simp only [hl, if_true]
          show (ensureCard db f).1.books ++ _ = _
          rw [ensureCard_books]
        · trivial
      · rw [Bool.not_eq_true] at hl
        left
        simp only [hl, Bool.false_eq_true, if_false]
        rw [ensureCard_books]

theorem not_mem_bookKeys_of_keyPresent_false {db : DB} {cid minor : Nat}
    (h : keyPresent db cid minor = false) : (cid, minor) ∉ bookKeys db := by
  intro hmem
  unfold bookKeys at hmem
  obtain ⟨b, hb, hbe⟩ := List.mem_map.1 hmem
  unfold keyPresent at h
  rw [List.any_eq_false] at h
  have := h b hb
  have h1 : b.card_id = cid := congrArg Prod.fst hbe
  have h2 : b.minor_key = minor := congrArg Prod.snd hbe
  rw [h1, h2] at this
  simp at this

theorem processFile_keys_nodup (db : DB) (f : FileEntry)
    (h : (bookKeys db).Nodup) : (bookKeys (processFile db f)).Nodup := by
  cases processFile_books_cases db f with
  | inl heq =>
    unfold bookKeys
    rw [heq]
    exact h
  | inr hcase =>
    obtain ⟨⟨lic, payload, heq⟩, hk⟩ := hcase
    unfold bookKeys
    rw [heq, List.map_append]
    refine List.Nodup.append h (List.nodup_singleton _) ?_
    intro x hx hx2
    simp only [List.map_cons, List.map_nil, List.mem_singleton] at hx2
    subst hx2
    exact not_mem_bookKeys_of_keyPresent_false hk hx

theorem run_keys_nodup (db : DB) (l : List FileEntry)
    (h : (bookKeys db).Nodup) : (bookKeys (run db l)).Nodup := by
  induction l generalizing db with
  | nil => exact h
  | cons f t ih =>
    rw [run_cons]
    exact ih (processFile db f) (processFile_keys_nodup db f h)

theorem processFile_metadata (db : DB) (f : FileEntry) :
    (processFile db f).metadata = db.metadata := by
  cases processFile_books_cases db f with
  | inl _ =>
    unfold processFile
    by_cases hk : keyPresent (ensureCard db f).1 (ensureCard db f).2 f.minor_key = true
    · simp only [hk, if_true]
      exact ensureCard_metadata db f
    · rw [Bool.not_eq_true] at hk
      simp only [hk, Bool.false_eq_true, if_false]
      cases f.outcome with
      | failed => exact ensureCard_metadata db f
      | noBody => exact ensureCard_metadata db f
      | book lic payload =>
        by_cases hl : licenseAllows lic = true
        · simp only [hl, if_true]
          exact ensureCard_metadata db f
        · rw [Bool.not_eq_true] at hl
          simp only [hl, Bool.false_eq_true, if_false]
          exact ensureCard_metadata db f
  | inr _ =>
    unfold processFile
    by_cases hk : keyPresent (ensureCard db f).1 (ensureCard db f).2 f.minor_key = true
    · simp only [hk, if_true]
      exact ensureCard_metadata db f
    · rw [Bool.not_eq_true] at hk
      simp only [hk, Bool.false_eq_true, if_false]
      cases f.outcome with
      | failed => exact ensureCard_metadata db f
      | noBody => exact ensureCard_metadata db f
      | book lic payload =>
        by_cases hl : licenseAllows lic = true
        · simp only [hl, if_true]
          exact ensureCard_metadata db f
        · rw [Bool.not_eq_true] at hl
          simp only [hl, Bool.false_eq_true, if_false]
          exact ensureCard_metadata db f

theorem run_metadata (db : DB) (l : List FileEntry) :
    (run db l).metadata = db.metadata := by
  induction l generalizing db with
  | nil => rfl
  | cons f t ih =>
    rw [run_cons, ih (processFile db f)]
    exact processFile_metadata db f

theorem db_meta_self (X : DB) (m : List MetaRow) (h : X.metadata = m) :
    { X with metadata := m } = X := by
  cases X
  cases h
  rfl

end BuildClaims

section BuildClaimTheorems

open PyStr Build Fix

/-- C5: the `(card_id, minor_key)` revision key is never duplicated, and
runs are resumable: starting the driver loop from the database left by a
committed prefix of the (sorted) file list and re-running over the full
list produces exactly the database of one uninterrupted run, and the
final revision key set is duplicate-free. -/
theorem revision_uniqueness_resumability :
    (∀ (files : List FileEntry) (n : Nat),
      run (run emptyDB (files.take n)) files = run emptyDB files) ∧
    (∀ files : List FileEntry, (bookKeys (run emptyDB files)).Nodup) := by
  constructor
  · intro files n
    have key : run (run emptyDB (files.take n)) (files.take n ++ files.drop n) =
        run emptyDB (files.take n ++ files.drop n) := by
      rw [run_append, run_append, run_stable]
    simpa [List.take_append_drop] using key
  · intro files
    exact run_keys_nodup emptyDB files List.nodup_nil

/-- C3 counterexample: there is no existence check making a re-run a
no-op; even with an empty corpus, running against the database produced
by an identical previous run still performs writes (the metadata table
is dropped and re-inserted on every run). -/
theorem rerun_still_writes :
    ¬ fullRunWrites (fullRun emptyDB [] stamp0) [] stamp0 = 0 := by decide

/-- C3 (amended): the orchestrator performs no output-exists check and
always rewrites the metadata table, but re-running against an unchanged
corpus and commit stamp leaves the logical database content identical:
a second full run over the published database is the identity on it. -/
theorem build_rerun_content_idempotent (files : List FileEntry) (stamp : MetaRow) :
    fullRun (fullRun emptyDB files stamp) files stamp =
      fullRun emptyDB files stamp := by
  have hfr : fullRun emptyDB files stamp =
      { run emptyDB files with metadata := [stamp] } := rfl
  have hmeta : (run emptyDB files).metadata = [] := run_metadata emptyDB files
  have hdrop : ({ fullRun emptyDB files stamp with metadata := [] } : DB) =
      run emptyDB files := by
    rw [hfr]
    exact db_meta_self (run emptyDB files) [] hmeta
  calc fullRun (fullRun emptyDB files stamp) files stamp
      = { run { fullRun emptyDB files stamp with metadata := [] } files with
          metadata := [stamp] } := rfl
    _ = { run (run emptyDB files) files with metadata := [stamp] } := by rw [hdrop]
    _ = { run emptyDB files with metadata := [stamp] } := by rw [run_stable]
    _ = fullRun emptyDB files stamp := rfl

/-- C2 counterexample: after a full run over a one-file corpus whose
book has no license URL, a revision row with a null license remains in
the published database (for any assignment of copyright status to works
— the build.py schema records none), refuting the claimed cleanup
cascade. -/
theorem licenseless_row_remains :
    ¬ (∀ expired : Nat → Prop,
        ∀ b ∈ (fullRun emptyDB [fileNoLicense] stamp0).books,
          b.license = none → expired b.card_id) := by
  intro h
  exact h (fun _ => False) ⟨1, 1, none, Html.S "payload"⟩ (by decide) (by decide)

/-- C2 (amended): `build.py` runs no cleanup cascade: after the driver
loop it only rewrites the metadata row and vacuums, so every revision
row present before or inserted during the run remains in the published
database regardless of license or copyright status, and no card or
author row is deleted either (the run only ever appends to those
tables). -/
theorem no_cleanup_cascade (db : DB) (files : List FileEntry) (stamp : MetaRow) :
    (∃ t, (fullRun db files stamp).books = db.books ++ t) ∧
    (∃ u, (fullRun db files stamp).cards = db.cards ++ u) ∧
    (fullRun db files stamp).metadata = [stamp] := by
  have hext := run_extends { db with metadata := [] } files
  obtain ⟨⟨u, hu⟩, ⟨t, ht⟩⟩ := hext
  refine ⟨⟨t, ?_⟩, ⟨u, ?_⟩, rfl⟩
  · show (run { db with metadata := [] } files).books = db.books ++ t
    exact ht
  · show (run { db with metadata := [] } files).cards = db.cards ++ u
    exact hu

end BuildClaimTheorems


open PyStr Build Html Fix in
/-- C6 witness: the general filter characterization applied at the
concrete CC BY file against the empty database. -/
theorem license_filter_nd_sa_witness :
    (processFile emptyDB fileBY).books.length = emptyDB.books.length + 1 ↔
      licenseRestrictive (S "https://creativecommons.org/licenses/by/2.1/jp/") =
        some false :=
  license_filter_nd_sa.1 emptyDB fileBY
    (S "https://creativecommons.org/licenses/by/2.1/jp/") (S "p")
    rfl (by decide) (by decide)

section C8Machinery

open PyStr Uni Normalizers

theorem replaceGo_drop (pat rep : List Char) :
    ∀ (s : List Char) (k : Nat), replaceGo pat rep s k = replaceGo pat rep (s.drop k) 0 := by
  intro s
  induction s with
  | nil => intro k; cases k <;> rfl
  | cons c cs ih =>
    intro k
    cases k with
    | zero => rfl
    | succ k =>
      show replaceGo pat rep cs k = _
      rw [ih k]
      rfl

theorem replaceSub_nil (pat rep : List Char) : replaceSub pat rep [] = [] := rfl

theorem replaceSub_cons (pat rep : List Char) (c : Char) (cs : List Char) :
    replaceSub pat rep (c :: cs) =
      if pat ≠ [] ∧ pat.isPrefixOf (c :: cs) then
        rep ++ replaceSub pat rep ((c :: cs).drop pat.length)
      else
        c :: replaceSub pat rep cs := by
  show replaceGo pat rep (c :: cs) 0 = _
  rw [replaceGo]
  by_cases h : pat ≠ [] ∧ pat.isPrefixOf (c :: cs)
  · rw [if_pos h, if_pos h]
    have hp : 0 < pat.length := List.length_pos.2 h.1
    have hdrop : (c :: cs).drop pat.length = cs.drop (pat.length - 1) := by
      cases hpl : pat.length with
      | zero => omega
      | succ n =>
        simp [List.drop_succ_cons]
    rw [replaceGo_drop, hdrop]
    rfl
  · rw [if_neg h, if_neg h]
    rfl

/-- Table sanity: every entry composes to its own composite. -/
theorem tbl_comp : ∀ e ∈ Uni.compTable, composePair e.a e.b = some e.c := compTable_comp

/-- Composites never occur as first components. -/
theorem tbl_c_not_a : ∀ e ∈ Uni.compTable, ∀ e2 ∈ Uni.compTable, e.c ≠ e2.a := by decide

/-- Composites never occur as second components. -/
theorem tbl_c_not_b : ∀ e ∈ Uni.compTable, ∀ e2 ∈ Uni.compTable, e.c ≠ e2.b := by decide

/-- First components never occur as second components. -/
theorem tbl_a_not_b : ∀ e ∈ Uni.compTable, ∀ e2 ∈ Uni.compTable, e.a ≠ e2.b := by decide

theorem composePair_mem {x y c : Char} (h : composePair x y = some c) :
    ∃ e ∈ Uni.compTable, e.a = x ∧ e.b = y ∧ e.c = c := by
  unfold composePair at h
  cases hf : Uni.compTable.find? (fun e => e.a = x && e.b = y) with
  | none => rw [hf] at h; exact Option.noConfusion h
  | some e =>
    rw [hf] at h
    have hc : e.c = c := Option.some.inj h
    have hmem := List.mem_of_find?_eq_some hf
    have hp := List.find?_some hf
    rw [Bool.and_eq_true] at hp
    exact ⟨e, hmem, of_decide_eq_true hp.1, of_decide_eq_true hp.2, hc⟩

theorem composePair_none_of_no_first {x : Char}
    (h : ∀ e ∈ Uni.compTable, e.a ≠ x) (y : Char) : composePair x y = none := by
  unfold composePair
  rw [List.find?_eq_none.2]
  · rfl
  · intro e he
    rw [Bool.and_eq_true, decide_eq_true_iff, decide_eq_true_iff]
    intro hco
    exact h e he hco.1

theorem composePair_none_of_no_second {y : Char}
    (h : ∀ e ∈ Uni.compTable, e.b ≠ y) (x : Char) : composePair x y = none := by
  unfold composePair
  rw [List.find?_eq_none.2]
  · rfl
  · intro e he
    rw [Bool.and_eq_true, decide_eq_true_iff, decide_eq_true_iff]
    intro hco
    exact h e he hco.2

theorem comp_no_left {a b c : Char} (h : composePair a b = some c) (x : Char) :
    composePair c x = none := by
  obtain ⟨e, he, _, _, hec⟩ := composePair_mem h
  subst hec
  exact composePair_none_of_no_first (fun e2 he2 => (tbl_c_not_a e he e2 he2).symm) x

theorem mark_no_left {a b c : Char} (h : composePair a b = some c) (x : Char) :
    composePair b x = none := by
  obtain ⟨e, he, _, heb, _⟩ := composePair_mem h
  subst heb
  exact composePair_none_of_no_first (fun e2 he2 => tbl_a_not_b e2 he2 e he) x

theorem decompChar_cases (x : Char) :
    decompChar x = [x] ∨
    ∃ e ∈ Uni.compTable, e.c = x ∧ decompChar x = [e.a, e.b] := by
  unfold decompChar
  cases hf : Uni.compTable.find? (fun e => e.c = x) with
  | none => exact Or.inl rfl
  | some e =>
    right
    refine ⟨e, List.mem_of_find?_eq_some hf, ?_, rfl⟩
    have hp := List.find?_some hf
    exact of_decide_eq_true hp

theorem composeAdj_cons (a : Char) (rest : List Char) :
    composeAdj (a :: rest) =
      match composeAdj rest with
      | [] => [a]
      | b :: r =>
        match composePair a b with
        | some c => c :: r
        | none => a :: b :: r := rfl

theorem chain_composeAdj (t : List Char) : NoPair (composeAdj t) := by
  induction t with
  | nil => exact List.chain'_nil
  | cons a rest ih =>
    show NoPair (composeAdj (a :: rest))
    cases hu : composeAdj rest with
    | nil =>
      simp only [composeAdj_cons, hu]
      exact List.chain'_singleton a
    | cons b r =>
      rw [hu] at ih
      cases hc : composePair a b with
      | some c =>
        simp only [composeAdj_cons, hu, hc]
        exact List.chain'_cons'.2
          ⟨fun h hh => comp_no_left hc h, (List.chain'_cons'.1 ih).2⟩
      | none =>
        simp only [composeAdj_cons, hu, hc]
        refine List.chain'_cons'.2 ⟨?_, ih⟩
        intro h hh
        have hhb : b = h := Option.some.inj (Option.mem_def.1 hh)
        rw [← hhb]
        exact hc

theorem nopair_composeAdj_id {s : List Char} (h : NoPair s) : composeAdj s = s := by
  induction s with
  | nil => rfl
  | cons a s' ih =>
    have htail : NoPair s' := (List.chain'_cons'.1 h).2
    rw [composeAdj_cons, ih htail]
    cases s' with
    | nil => rfl
    | cons b r =>
      have hrel : composePair a b = none := (List.chain'_cons'.1 h).1 b rfl
      simp only [hrel]

theorem decompAll_nil : decompAll [] = [] := rfl

theorem decompAll_cons (c : Char) (s : List Char) :
    decompAll (c :: s) = decompChar c ++ decompAll s := by
  unfold decompAll
  rw [List.map_cons, List.flatten_cons]

theorem composeAdj_norm {s : List Char} (h : NoPair s) :
    composeAdj (decompAll s) = s := by
  induction s with
  | nil => rfl
  | cons c s' ih =>
    have htail : NoPair s' := (List.chain'_cons'.1 h).2
    have hrel : ∀ h' ∈ s'.head?, composePair c h' = none := (List.chain'_cons'.1 h).1
    rw [decompAll_cons]
    cases decompChar_cases c with
    | inl hnd =>
      rw [hnd, List.singleton_append, composeAdj_cons, ih htail]
      cases s' with
      | nil => rfl
      | cons b r => simp only [hrel b rfl]
    | inr hcomp =>
      obtain ⟨e, he, hec, hdec⟩ := hcomp
      have hpair := tbl_comp e he
      have hmid : composeAdj (e.b :: decompAll s') = e.b :: s' := by
        rw [composeAdj_cons, ih htail]
        cases s' with
        | nil => rfl
        | cons b r => simp only [mark_no_left hpair b]
      rw [hdec]
      show composeAdj (e.a :: e.b :: decompAll s') = c :: s'
      rw [composeAdj_cons, hmid]
      simp only [hpair, hec]

theorem nfc_nopair (s : List Char) : NoPair (nfc s) := chain_composeAdj _

theorem nopair_nfc_id {s : List Char} (h : NoPair s) : nfc s = s := composeAdj_norm h

theorem nfc_idem (s : List Char) : nfc (nfc s) = nfc s := nopair_nfc_id (nfc_nopair s)

end C8Machinery

section C8Stage2

open PyStr Uni Normalizers

theorem decompChar_self_of_no_comp {c : Char}
    (h : ∀ e ∈ Uni.compTable, e.c ≠ c) : decompChar c = [c] := by
  unfold decompChar
  rw [List.find?_eq_none.2]
  intro e he
  rw [decide_eq_true_iff]
  exact h e he

theorem inertCh_of_table {c : Char}
    (h : ∀ e ∈ Uni.compTable, e.a ≠ c ∧ e.b ≠ c ∧ e.c ≠ c) : inertCh c :=
  ⟨composePair_none_of_no_first (fun e he => (h e he).1),
   composePair_none_of_no_second (fun e he => (h e he).2.1),
   decompChar_self_of_no_comp (fun e he => (h e he).2.2)⟩

theorem inert_nl : inertCh '\n' := inertCh_of_table (by decide)

theorem inert_fffd : inertCh '�' := inertCh_of_table (by decide)

theorem inert_3031 : inertCh '〱' := inertCh_of_table (by decide)

theorem inert_3032 : inertCh '〲' := inertCh_of_table (by decide)

theorem nopair_append_left {a b : List Char} (h : NoPair (a ++ b)) : NoPair a :=
  (List.chain'_append.1 h).1

theorem nopair_append_right {a b : List Char} (h : NoPair (a ++ b)) : NoPair b :=
  (List.chain'_append.1 h).2.1

theorem nopair_of_pre {t s : List Char} (hp : t <+: s) (h : NoPair s) : NoPair t := by
  obtain ⟨u, hu⟩ := hp
  rw [← hu] at h
  exact nopair_append_left h

theorem nopair_of_suf {t s : List Char} (hp : t <:+ s) (h : NoPair s) : NoPair t := by
  obtain ⟨u, hu⟩ := hp
  rw [← hu] at h
  exact nopair_append_right h

theorem dropWhile_suf {α : Type} (p : α → Bool) (s : List α) : s.dropWhile p <:+ s :=
  ⟨s.takeWhile p, List.takeWhile_append_dropWhile p s⟩

theorem stripEnd_pre (p : Char → Bool) (s : List Char) :
    (s.reverse.dropWhile p).reverse <+: s := by
  refine ⟨(s.reverse.takeWhile p).reverse, ?_⟩
  rw [← List.reverse_append, List.takeWhile_append_dropWhile, List.reverse_reverse]

theorem pystrip_pre_suf (s : List Char) :
    ∃ m, pystrip s <+: m ∧ m <:+ s := by
  exact ⟨s.dropWhile isPySpace, stripEnd_pre isPySpace _, dropWhile_suf isPySpace s⟩

theorem nopair_pystrip {s : List Char} (h : NoPair s) : NoPair (pystrip s) := by
  obtain ⟨m, h1, h2⟩ := pystrip_pre_suf s
  exact nopair_of_pre h1 (nopair_of_suf h2 h)

theorem nopair_drop {s : List Char} (n : Nat) (h : NoPair s) : NoPair (s.drop n) :=
  nopair_of_suf ⟨s.take n, s.take_append_drop n⟩ h

theorem replaceSub_head {pat : List Char} {r : Char} {cs : List Char} {h : Char}
    (hh : (replaceSub pat [r] cs).head? = some h) : h = r ∨ cs.head? = some h := by
  cases cs with
  | nil => exact absurd hh (by rw [replaceSub_nil]; exact Option.noConfusion)
  | cons c2 cs2 =>
    rw [replaceSub_cons] at hh
    by_cases hm : pat ≠ [] ∧ pat.isPrefixOf (c2 :: cs2)
    · rw [if_pos hm] at hh
      exact Or.inl (Option.some.inj hh).symm
    · rw [if_neg hm] at hh
      exact Or.inr (by rw [← Option.some.inj hh]; rfl)

theorem nopair_replaceSub_aux {pat : List Char} {r : Char} (hr : inertCh r) :
    ∀ (n : Nat) (s : List Char), s.length ≤ n → NoPair s →
      NoPair (replaceSub pat [r] s) := by
  intro n
  induction n with
  | zero =>
    intro s hs _
    rw [List.length_eq_zero.1 (Nat.le_zero.1 hs)]
    exact List.chain'_nil
  | succ n ih =>
    intro s hs h
    cases s with
    | nil => exact List.chain'_nil
    | cons c cs =>
      rw [replaceSub_cons]
      by_cases hm : pat ≠ [] ∧ pat.isPrefixOf (c :: cs)
      · rw [if_pos hm]
        have hlenpat : 0 < pat.length := List.length_pos.2 hm.1
        have hlen : ((c :: cs).drop pat.length).length ≤ n := by
          rw [List.length_drop, List.length_cons]
          rw [List.length_cons] at hs
          omega
        have hX := ih _ hlen (nopair_drop pat.length h)
        rw [List.singleton_append]
        refine List.chain'_cons'.2 ⟨?_, hX⟩
        intro h2 _
        exact hr.1 h2
      · rw [if_neg hm]
        have hlen : cs.length ≤ n := by
          rw [List.length_cons] at hs
          omega
        have htail : NoPair cs := (List.chain'_cons'.1 h).2
        have hX := ih _ hlen htail
        refine List.chain'_cons'.2 ⟨?_, hX⟩
        intro h2 hh2
        cases replaceSub_head (Option.mem_def.1 hh2) with
        | inl hre =>
          rw [hre]
          exact hr.2.1 c
        | inr hcs =>
          exact (List.chain'_cons'.1 h).1 h2 (Option.mem_def.2 hcs)

theorem nopair_replaceSub {pat : List Char} {r : Char} (hr : inertCh r)
    {s : List Char} (h : NoPair s) : NoPair (replaceSub pat [r] s) :=
  nopair_replaceSub_aux hr s.length s le_rfl h

end C8Stage2

section C8Stage3

open PyStr Uni Normalizers

theorem hasOcc_nil_false {q : List Char} (hq : q ≠ []) : hasOcc q [] = false := by
  cases q with
  | nil => exact absurd rfl hq
  | cons a b => rfl

theorem hasOcc_cons (pat : List Char) (c : Char) (cs : List Char) :
    hasOcc pat (c :: cs) = (pat.isPrefixOf (c :: cs) || hasOcc pat cs) := rfl

theorem hasOcc_tail {pat : List Char} {c : Char} {cs : List Char}
    (h : hasOcc pat (c :: cs) = false) : hasOcc pat cs = false := by
  rw [hasOcc_cons, Bool.or_eq_false_iff] at h
  exact h.2

theorem hasOcc_head_false {pat : List Char} {c : Char} {cs : List Char}
    (h : hasOcc pat (c :: cs) = false) : pat.isPrefixOf (c :: cs) = false := by
  rw [hasOcc_cons, Bool.or_eq_false_iff] at h
  exact h.1

theorem replaceSub_id_of_noocc {pat rep s : List Char} (h : hasOcc pat s = false) :
    replaceSub pat rep s = s := by
  induction s with
  | nil => rfl
  | cons c cs ih =>
    rw [replaceSub_cons, if_neg, ih (hasOcc_tail h)]
    intro hcon
    rw [hasOcc_head_false h] at hcon
    exact Bool.noConfusion hcon.2

theorem hasOcc_drop {pat s : List Char} (h : hasOcc pat s = false) (n : Nat) :
    hasOcc pat (s.drop n) = false := by
  induction s generalizing n with
  | nil => rw [List.drop_nil]; exact h
  | cons c cs ih =>
    cases n with
    | zero => exact h
    | succ n => exact ih (hasOcc_tail h) n

theorem occ_append_front {q a X : List Char} (hq : q ≠ [])
    (hdisj : ∀ ch ∈ a, ch ∉ q) (hX : hasOcc q X = false) :
    hasOcc q (a ++ X) = false := by
  induction a with
  | nil => exact hX
  | cons ch a' ih =>
    rw [List.cons_append, hasOcc_cons, Bool.or_eq_false_iff]
    refine ⟨?_, ih (fun x hx => hdisj x (List.mem_cons_of_mem ch hx))⟩
    cases q with
    | nil => exact absurd rfl hq
    | cons qh qt =>
      show (qh == ch && qt.isPrefixOf (a' ++ X)) = false
      have hne : qh ≠ ch := by
        intro he
        exact hdisj ch (List.mem_cons_self ch a') (he ▸ List.mem_cons_self qh qt)
      rw [beq_eq_false_iff_ne.2 hne, Bool.false_and]

theorem drop_mem_sub {q : List Char} {k : Nat} {x : Char} (h : x ∈ q.drop k) : x ∈ q :=
  List.mem_of_mem_drop h

theorem occ_transfer {q pat rep : List Char} (hrep : rep ≠ [])
    (hdisj : ∀ ch ∈ rep, ch ∉ q) :
    ∀ (n : Nat) (s : List Char), s.length ≤ n → ∀ k, 0 < k →
      q.drop k ≠ [] → (q.drop k).isPrefixOf (replaceSub pat rep s) = true →
      (q.drop k).isPrefixOf s = true := by
  intro n
  induction n with
  | zero =>
    intro s hs k _ hne hpre
    rw [List.length_eq_zero.1 (Nat.le_zero.1 hs)] at hpre ⊢
    rw [replaceSub_nil] at hpre
    cases hσ : q.drop k with
    | nil => exact absurd hσ hne
    | cons σh σt => rw [hσ] at hpre; exact Bool.noConfusion hpre
  | succ n ih =>
    intro s hs k hk hne hpre
    cases s with
    | nil =>
      rw [replaceSub_nil] at hpre
      exact hpre
    | cons c cs =>
      rw [replaceSub_cons] at hpre
      by_cases hm : pat ≠ [] ∧ pat.isPrefixOf (c :: cs)
      · rw [if_pos hm] at hpre
        exfalso
        cases hσ : q.drop k with
        | nil => exact hne hσ
        | cons σh σt =>
          cases hrepc : rep with
          | nil => exact hrep hrepc
          | cons rh rt =>
            rw [hσ, hrepc, List.cons_append] at hpre
            have hpre2 : (σh == rh && σt.isPrefixOf
                (rt ++ replaceSub pat (rh :: rt) (List.drop pat.length (c :: cs)))) = true := hpre
            rw [Bool.and_eq_true] at hpre2
            have h1 : σh = rh := beq_iff_eq.1 hpre2.1
            have hσq : σh ∈ q := drop_mem_sub (hσ ▸ List.mem_cons_self σh σt)
            exact hdisj rh (hrepc ▸ List.mem_cons_self rh rt) (h1 ▸ hσq)
            
      · rw [if_neg hm] at hpre
        cases hσ : q.drop k with
        | nil => exact absurd hσ hne
        | cons σh σt =>
          rw [hσ] at hpre
          have hpre2 : (σh == c && σt.isPrefixOf (replaceSub pat rep cs)) = true := hpre
          rw [Bool.and_eq_true] at hpre2
          show (σh == c && σt.isPrefixOf cs) = true
          rw [Bool.and_eq_true]
          have hσt : σt = q.drop (k + 1) := by
            have hdd : q.drop (k + 1) = (q.drop k).drop 1 := by
              rw [List.drop_drop]
            rw [hdd, hσ, List.drop_one, List.tail_cons]
          cases hσte : σt with
          | nil => exact ⟨hpre2.1, by cases cs <;> rfl⟩
          | cons a b =>
            refine ⟨hpre2.1, ?_⟩
            have hlen : cs.length ≤ n := by
              rw [List.length_cons] at hs
              omega
            have hres := ih cs hlen (k + 1) (by omega)
              (by rw [← hσt, hσte]; exact List.cons_ne_nil a b)
              (by rw [← hσt, hσte]; rw [hσte] at hpre2; exact hpre2.2)
            rw [← hσt, hσte] at hres
            exact hres

end C8Stage3

section C8Stage4

open PyStr Uni Normalizers

theorem noocc_replace {q pat rep : List Char} (hq : q ≠ []) (hrep : rep ≠ [])
    (hdisj : ∀ ch ∈ rep, ch ∉ q) :
    ∀ (n : Nat) (s : List Char), s.length ≤ n → (q = pat ∨ hasOcc q s = false) →
      hasOcc q (replaceSub pat rep s) = false := by
  intro n
  induction n with
  | zero =>
    intro s hs _
    rw [List.length_eq_zero.1 (Nat.le_zero.1 hs), replaceSub_nil]
    exact hasOcc_nil_false hq
  | succ n ih =>
    intro s hs hH
    cases s with
    | nil =>
      rw [replaceSub_nil]
      exact hasOcc_nil_false hq
    | cons c cs =>
      rw [replaceSub_cons]
      by_cases hm : pat ≠ [] ∧ pat.isPrefixOf (c :: cs)
      · rw [if_pos hm]
        have hlenpat : 0 < pat.length := List.length_pos.2 hm.1
        have hlen : ((c :: cs).drop pat.length).length ≤ n := by
          rw [List.length_drop, List.length_cons]
          rw [List.length_cons] at hs
          omega
        have hX : hasOcc q (replaceSub pat rep ((c :: cs).drop pat.length)) = false := by
          refine ih _ hlen ?_
          cases hH with
          | inl h => exact Or.inl h
          | inr h => exact Or.inr (hasOcc_drop h pat.length)
        exact occ_append_front hq hdisj hX
      · rw [if_neg hm]
        have hlen : cs.length ≤ n := by
          rw [List.length_cons] at hs
          omega
        have hX : hasOcc q (replaceSub pat rep cs) = false := by
          refine ih _ hlen ?_
          cases hH with
          | inl h => exact Or.inl h
          | inr h => exact Or.inr (hasOcc_tail h)
        rw [hasOcc_cons, Bool.or_eq_false_iff]
        refine ⟨?_, hX⟩
        by_cases hpre : q.isPrefixOf (c :: replaceSub pat rep cs) = true
        · exfalso
          cases hqc : q with
          | nil => exact hq hqc
          | cons qh qt =>
            subst hqc
            have hpre2 : (qh == c && qt.isPrefixOf (replaceSub pat rep cs)) = true := hpre
            rw [Bool.and_eq_true] at hpre2
            have hqh : qh = c := beq_iff_eq.1 hpre2.1
            have hqpre : (qh :: qt).isPrefixOf (c :: cs) = true := by
              cases hqt : qt with
              | nil =>
                subst hqt
                rw [hqh]
                show (c == c && List.isPrefixOf [] cs) = true
                rw [beq_self_eq_true, Bool.true_and]
                cases cs <;> rfl
              | cons a b =>
                subst hqt
                have htr := occ_transfer hrep hdisj cs.length cs le_rfl 1
                  (by omega) (List.cons_ne_nil a b) hpre2.2
                show (qh == c && (a :: b).isPrefixOf cs) = true
                rw [Bool.and_eq_true]
                exact ⟨hpre2.1, htr⟩
            cases hH with
            | inl hqp =>
              exact hm ⟨by rw [← hqp]; exact hq, by rw [← hqp]; exact hqpre⟩
            | inr hocc =>
              rw [hasOcc_head_false hocc] at hqpre
              exact Bool.noConfusion hqpre
        · rw [Bool.not_eq_true] at hpre
          exact hpre

theorem hasOcc_extend_right {q t : List Char} (u : List Char)
    (h : hasOcc q t = true) : hasOcc q (t ++ u) = true := by
  induction t with
  | nil =>
    rw [List.nil_append]
    cases hq : q with
    | nil =>
      cases u with
      | nil => rfl
      | cons x xs =>
        rw [hasOcc_cons]
        show (List.isPrefixOf [] (x :: xs) || hasOcc [] xs) = true
        rfl
    | cons a b =>
      rw [hq] at h
      rw [hasOcc_nil_false (List.cons_ne_nil a b)] at h
      exact Bool.noConfusion h
  | cons c t' ih =>
    rw [show ((c :: t') ++ u) = c :: (t' ++ u) from rfl]
    rw [hasOcc_cons] at h ⊢
    rw [Bool.or_eq_true] at h ⊢
    cases h with
    | inl hp =>
      left
      have := List.isPrefixOf_iff_prefix.1 hp
      obtain ⟨w, hw⟩ := this
      refine List.isPrefixOf_iff_prefix.2 ⟨w ++ u, ?_⟩
      rw [← List.append_assoc, hw]
      rfl
    | inr ht => exact Or.inr (ih ht)

theorem hasOcc_pre_mono {q t u : List Char} (h : hasOcc q (t ++ u) = false) :
    hasOcc q t = false := by
  by_cases ht : hasOcc q t = true
  · rw [hasOcc_extend_right u ht] at h
    exact Bool.noConfusion h
  · rw [Bool.not_eq_true] at ht
    exact ht

theorem hasOcc_suf_mono {q a t : List Char} (h : hasOcc q (a ++ t) = false) :
    hasOcc q t = false := by
  induction a with
  | nil => exact h
  | cons c a' ih =>
    rw [List.cons_append] at h
    exact ih (hasOcc_tail h)

theorem hasOcc_of_prefix_false {q t s : List Char} (hp : t <+: s)
    (h : hasOcc q s = false) : hasOcc q t = false := by
  obtain ⟨u, hu⟩ := hp
  rw [← hu] at h
  exact hasOcc_pre_mono h

theorem hasOcc_of_suffix_false {q t s : List Char} (hp : t <:+ s)
    (h : hasOcc q s = false) : hasOcc q t = false := by
  obtain ⟨u, hu⟩ := hp
  rw [← hu] at h
  exact hasOcc_suf_mono h

theorem hasOcc_pystrip {q s : List Char} (h : hasOcc q s = false) :
    hasOcc q (pystrip s) = false := by
  obtain ⟨m, h1, h2⟩ := pystrip_pre_suf s
  exact hasOcc_of_prefix_false h1 (hasOcc_of_suffix_false h2 h)

end C8Stage4


section C8Stage5

open PyStr Uni Normalizers

theorem pysplit_cons (sep c : Char) (cs : List Char) {h : List Char}
    {t : List (List Char)} (hps : pysplit sep cs = h :: t) :
    pysplit sep (c :: cs) = if c = sep then [] :: h :: t else (c :: h) :: t := by
  rw [pysplit, hps]

theorem pysplit_ne_nil (sep : Char) : ∀ (s : List Char), pysplit sep s ≠ [] := by
  intro s
  induction s with
  | nil => exact List.cons_ne_nil _ _
  | cons c cs ih =>
    cases hps : pysplit sep cs with
    | nil => exact absurd hps ih
    | cons h t =>
      rw [pysplit_cons sep c cs hps]
      by_cases hc : c = sep
      · rw [if_pos hc]; exact List.cons_ne_nil _ _
      · rw [if_neg hc]; exact List.cons_ne_nil _ _

theorem pysplit_head_pre (sep : Char) :
    ∀ (s h : List Char) (t : List (List Char)),
      pysplit sep s = h :: t → h <+: s := by
  intro s
  induction s with
  | nil =>
    intro h t he
    rw [pysplit] at he
    rw [← (List.cons.inj he).1]
  | cons c cs ih =>
    intro h t he
    cases hps : pysplit sep cs with
    | nil => exact absurd hps (pysplit_ne_nil sep cs)
    | cons h0 t0 =>
      rw [pysplit_cons sep c cs hps] at he
      by_cases hc : c = sep
      · rw [if_pos hc] at he
        rw [← (List.cons.inj he).1]
        exact List.nil_prefix
      · rw [if_neg hc] at he
        rw [← (List.cons.inj he).1]
        exact List.cons_prefix_cons.2 ⟨rfl, ih h0 t0 hps⟩

theorem pysplit_elem_occ {q : List Char} (hq : q ≠ []) (sep : Char) :
    ∀ (s : List Char), hasOcc q s = false →
      ∀ l ∈ pysplit sep s, hasOcc q l = false := by
  intro s
  induction s with
  | nil =>
    intro _ l hl
    rw [pysplit] at hl
    rw [List.mem_singleton.1 hl]
    exact hasOcc_nil_false hq
  | cons c cs ih =>
    intro h l hl
    cases hps : pysplit sep cs with
    | nil => exact absurd hps (pysplit_ne_nil sep cs)
    | cons h0 t0 =>
      rw [pysplit_cons sep c cs hps] at hl
      by_cases hc : c = sep
      · rw [if_pos hc] at hl
        cases List.mem_cons.1 hl with
        | inl hl0 =>
          rw [hl0]
          exact hasOcc_nil_false hq
        | inr hl0 =>
          exact ih (hasOcc_tail h) l (by rw [hps]; exact hl0)
      · rw [if_neg hc] at hl
        cases List.mem_cons.1 hl with
        | inl hl0 =>
          subst hl0
          rw [hasOcc_cons, Bool.or_eq_false_iff]
          refine ⟨?_, ih (hasOcc_tail h) h0
            (by rw [hps]; exact List.mem_cons_self h0 t0)⟩
          cases hb : q.isPrefixOf (c :: h0) with
          | false => rfl
          | true =>
            exfalso
            have hpre : (c :: h0) <+: (c :: cs) :=
              List.cons_prefix_cons.2 ⟨rfl, pysplit_head_pre sep cs h0 t0 hps⟩
            have hq2 : q <+: (c :: cs) :=
              (List.isPrefixOf_iff_prefix.1 hb).trans hpre
            have h1 := hasOcc_head_false h
            rw [List.isPrefixOf_iff_prefix.2 hq2] at h1
            exact Bool.noConfusion h1
        | inr hl0 =>
          exact ih (hasOcc_tail h) l (by rw [hps]; exact List.mem_cons_of_mem h0 hl0)

theorem joinNL_cons₂ (l h : List Char) (t : List (List Char)) :
    joinNL (l :: h :: t) = l ++ '\n' :: joinNL (h :: t) := rfl

theorem isPrefixOf_nonl {q : List Char} (hnl : '\n' ∉ q) (b : List Char) :
    ∀ (a : List Char), q.isPrefixOf (a ++ '\n' :: b) = q.isPrefixOf a := by
  induction q with
  | nil =>
    intro a
    cases a with
    | nil => rfl
    | cons x xs =>
      show (List.isPrefixOf [] _) = List.isPrefixOf [] _
      rfl
  | cons qh qt ih =>
    intro a
    cases a with
    | nil =>
      rw [List.nil_append]
      show (qh == '\n' && qt.isPrefixOf b) = List.isPrefixOf (qh :: qt) []
      have hne : qh ≠ '\n' := fun he => hnl (he ▸ List.mem_cons_self qh qt)
      rw [beq_eq_false_iff_ne.2 hne, Bool.false_and]
      rfl
    | cons ah at2 =>
      rw [List.cons_append]
      show (qh == ah && qt.isPrefixOf (at2 ++ '\n' :: b)) =
        (qh == ah && qt.isPrefixOf at2)
      rw [ih (fun hm => hnl (List.mem_cons_of_mem qh hm)) at2]

theorem occ_append_nl {q : List Char} (hq : q ≠ []) (hnl : '\n' ∉ q)
    {rest : List Char} (hrest : hasOcc q rest = false) :
    ∀ (a : List Char), hasOcc q a = false → hasOcc q (a ++ '\n' :: rest) = false := by
  intro a
  induction a with
  | nil =>
    intro _
    rw [List.nil_append, hasOcc_cons, Bool.or_eq_false_iff]
    refine ⟨?_, hrest⟩
    cases q with
    | nil => exact absurd rfl hq
    | cons qh qt =>
      show (qh == '\n' && qt.isPrefixOf rest) = false
      have hne : qh ≠ '\n' := fun he => hnl (he ▸ List.mem_cons_self qh qt)
      rw [beq_eq_false_iff_ne.2 hne, Bool.false_and]
  | cons c a' ih =>
    intro ha
    rw [List.cons_append, hasOcc_cons, Bool.or_eq_false_iff]
    refine ⟨?_, ih (hasOcc_tail ha)⟩
    rw [show (c :: (a' ++ '\n' :: rest)) = ((c :: a') ++ '\n' :: rest) from rfl]
    rw [isPrefixOf_nonl hnl rest (c :: a')]
    exact hasOcc_head_false ha

theorem join_occ {q : List Char} (hq : q ≠ []) (hnl : '\n' ∉ q) :
    ∀ (L : List (List Char)), (∀ l ∈ L, hasOcc q l = false) →
      hasOcc q (joinNL L) = false := by
  intro L
  induction L with
  | nil =>
    intro _
    exact hasOcc_nil_false hq
  | cons l t ih =>
    intro h
    cases t with
    | nil => exact h l (List.mem_singleton.2 rfl)
    | cons h2 t2 =>
      rw [joinNL_cons₂]
      exact occ_append_nl hq hnl
        (ih (fun x hx => h x (List.mem_cons_of_mem l hx))) l
        (h l (List.mem_cons_self l _))

theorem nopair_joinNL :
    ∀ (L : List (List Char)), (∀ l ∈ L, NoPair l) → NoPair (joinNL L) := by
  intro L
  induction L with
  | nil => intro _; exact List.chain'_nil
  | cons l t ih =>
    intro h
    cases t with
    | nil => exact h l (List.mem_singleton.2 rfl)
    | cons h2 t2 =>
      rw [joinNL_cons₂]
      unfold NoPair
      rw [List.chain'_append]
      refine ⟨h l (List.mem_cons_self l _), ?_, ?_⟩
      · refine List.chain'_cons'.2
          ⟨?_, ih (fun x hx => h x (List.mem_cons_of_mem l hx))⟩
        intro y _
        exact inert_nl.1 y
      · intro x _ y hy
        rw [List.head?_cons, Option.mem_def, Option.some.injEq] at hy
        rw [← hy]
        exact inert_nl.2.1 x

end C8Stage5

section C8Stage6

open PyStr Uni Normalizers

theorem composeAdj_cons_eqnil {a : Char} {rest : List Char}
    (h : composeAdj rest = []) : composeAdj (a :: rest) = [a] := by
  rw [composeAdj_cons, h]

theorem composeAdj_cons_some {a b c : Char} {rest r : List Char}
    (h1 : composeAdj rest = b :: r) (h2 : composePair a b = some c) :
    composeAdj (a :: rest) = c :: r := by
  rw [composeAdj_cons, h1]
  show (match composePair a b with
    | some x => x :: r
    | none => a :: b :: r) = c :: r
  rw [h2]

theorem composeAdj_cons_none {a b : Char} {rest r : List Char}
    (h1 : composeAdj rest = b :: r) (h2 : composePair a b = none) :
    composeAdj (a :: rest) = a :: b :: r := by
  rw [composeAdj_cons, h1]
  show (match composePair a b with
    | some x => x :: r
    | none => a :: b :: r) = a :: b :: r
  rw [h2]

theorem composeAdj_cons_nl (v : List Char) :
    composeAdj ('\n' :: v) = '\n' :: composeAdj v := by
  cases hv : composeAdj v with
  | nil => rw [composeAdj_cons_eqnil hv]
  | cons b r => rw [composeAdj_cons_none hv (inert_nl.1 b)]

theorem composeAdj_append_nl (v u : List Char) :
    composeAdj (u ++ '\n' :: v) = composeAdj u ++ '\n' :: composeAdj v := by
  induction u with
  | nil =>
    rw [List.nil_append, composeAdj_cons_nl]
    rfl
  | cons c u' ih =>
    rw [List.cons_append]
    cases hu : composeAdj u' with
    | nil =>
      rw [hu, List.nil_append] at ih
      rw [composeAdj_cons_none ih (inert_nl.2.1 c), composeAdj_cons_eqnil hu]
      rfl
    | cons b r =>
      rw [hu, List.cons_append] at ih
      cases hcb : composePair c b with
      | some d =>
        rw [composeAdj_cons_some ih hcb, composeAdj_cons_some hu hcb]
        rfl
      | none =>
        rw [composeAdj_cons_none ih hcb, composeAdj_cons_none hu hcb]
        rfl

theorem decompAll_append (a b : List Char) :
    decompAll (a ++ b) = decompAll a ++ decompAll b := by
  unfold decompAll
  rw [List.map_append, List.flatten_append]

theorem nfc_append_nl (a b : List Char) :
    nfc (a ++ '\n' :: b) = nfc a ++ '\n' :: nfc b := by
  unfold nfc
  have h1 : decompAll (a ++ '\n' :: b) = decompAll a ++ '\n' :: decompAll b := by
    rw [show (('\n' :: b) : List Char) = ['\n'] ++ b from rfl, decompAll_append,
      decompAll_append]
    rw [show decompAll ['\n'] = ['\n'] from by decide]
    rfl
  rw [h1, composeAdj_append_nl]

end C8Stage6

section C8Stage6b

open PyStr Uni Normalizers

theorem isPrefixOf_false_of_nonl {pat : List Char} (hpat : pat ≠ [])
    (hnl : '\n' ∉ pat) (b : List Char) : pat.isPrefixOf ('\n' :: b) = false := by
  cases pat with
  | nil => exact absurd rfl hpat
  | cons p0 pt =>
    show (p0 == '\n' && pt.isPrefixOf b) = false
    have hne : p0 ≠ '\n' := fun he => hnl (he ▸ List.mem_cons_self p0 pt)
    rw [beq_eq_false_iff_ne.2 hne, Bool.false_and]

theorem replace_append_nl {pat rep : List Char} (hpat : pat ≠ []) (hnl : '\n' ∉ pat)
    (b : List Char) :
    ∀ (n : Nat) (a : List Char), a.length ≤ n →
      replaceSub pat rep (a ++ '\n' :: b) =
        replaceSub pat rep a ++ '\n' :: replaceSub pat rep b := by
  intro n
  induction n with
  | zero =>
    intro a ha
    rw [List.length_eq_zero.1 (Nat.le_zero.1 ha)]
    rw [List.nil_append, replaceSub_nil, List.nil_append]
    rw [replaceSub_cons, if_neg]
    intro hcon
    rw [isPrefixOf_false_of_nonl hpat hnl b] at hcon
    exact Bool.noConfusion hcon.2
  | succ n ih =>
    intro a ha
    cases a with
    | nil =>
      rw [List.nil_append, replaceSub_nil, List.nil_append]
      rw [replaceSub_cons, if_neg]
      intro hcon
      rw [isPrefixOf_false_of_nonl hpat hnl b] at hcon
      exact Bool.noConfusion hcon.2
    | cons c a' =>
      rw [List.cons_append, replaceSub_cons, replaceSub_cons]
      by_cases hm : pat ≠ [] ∧ pat.isPrefixOf (c :: a')
      · have hm2 : pat ≠ [] ∧ pat.isPrefixOf (c :: (a' ++ '\n' :: b)) := by
          refine ⟨hpat, ?_⟩
          rw [show (c :: (a' ++ '\n' :: b)) = ((c :: a') ++ '\n' :: b) from rfl]
          rw [isPrefixOf_nonl hnl b (c :: a')]
          exact hm.2
        rw [if_pos hm2, if_pos hm]
        have hlen : pat.length ≤ (c :: a').length :=
          (List.isPrefixOf_iff_prefix.1 hm.2).length_le
        have hd : (c :: (a' ++ '\n' :: b)).drop pat.length =
            (c :: a').drop pat.length ++ '\n' :: b := by
          rw [show (c :: (a' ++ '\n' :: b)) = ((c :: a') ++ '\n' :: b) from rfl]
          exact List.drop_append_of_le_length hlen
        have hlen2 : ((c :: a').drop pat.length).length ≤ n := by
          rw [List.length_drop, List.length_cons]
          have h1 : 1 ≤ pat.length := List.length_pos.2 hpat
          have h2 : a'.length + 1 ≤ n + 1 := ha
          omega
        rw [hd, ih ((c :: a').drop pat.length) hlen2]
        rw [List.append_assoc]
      · have hm2 : ¬(pat ≠ [] ∧ pat.isPrefixOf (c :: (a' ++ '\n' :: b))) := by
          intro hcon
          refine hm ⟨hpat, ?_⟩
          have h2 := hcon.2
          rw [show (c :: (a' ++ '\n' :: b)) = ((c :: a') ++ '\n' :: b) from rfl,
            isPrefixOf_nonl hnl b (c :: a')] at h2
          exact h2
        rw [if_neg hm2, if_neg hm]
        rw [ih a' (Nat.le_of_succ_le_succ ha)]
        rfl

theorem replaceSub_append_nl {pat rep : List Char} (hpat : pat ≠ [])
    (hnl : '\n' ∉ pat) (a b : List Char) :
    replaceSub pat rep (a ++ '\n' :: b) =
      replaceSub pat rep a ++ '\n' :: replaceSub pat rep b :=
  replace_append_nl hpat hnl b a.length a le_rfl

theorem applyReplaces_eq (s : List Char) :
    applyReplaces s =
      replaceSub ['／', '″', '＼'] ['〲']
        (replaceSub ['／', '＼'] ['〱']
          (replaceSub ['※'] ['�'] s)) := rfl

theorem applyReplaces_append_nl (a b : List Char) :
    applyReplaces (a ++ '\n' :: b) = applyReplaces a ++ '\n' :: applyReplaces b := by
  rw [applyReplaces_eq, applyReplaces_eq, applyReplaces_eq]
  rw [replaceSub_append_nl (by decide) (by decide) a b]
  rw [replaceSub_append_nl (by decide) (by decide) _ _]
  rw [replaceSub_append_nl (by decide) (by decide) _ _]

end C8Stage6b

section C8Stage6c

open PyStr Uni Normalizers

theorem joinNL_map (g : List Char → List Char)
    (hg : ∀ a b, g (a ++ '\n' :: b) = g a ++ '\n' :: g b) :
    ∀ (L : List (List Char)), L ≠ [] → g (joinNL L) = joinNL (L.map g) := by
  intro L
  induction L with
  | nil => intro h; exact absurd rfl h
  | cons l t ih =>
    intro _
    cases t with
    | nil => rfl
    | cons h2 t2 =>
      rw [joinNL_cons₂, hg l (joinNL (h2 :: t2)), ih (List.cons_ne_nil h2 t2)]
      rfl

theorem joinNL_cons_head (c : Char) (h : List Char) (t : List (List Char)) :
    joinNL ((c :: h) :: t) = c :: joinNL (h :: t) := by
  cases t with
  | nil => rfl
  | cons a b => rfl

theorem splitjoin : ∀ (x : List Char), joinNL (pysplit '\n' x) = x := by
  intro x
  induction x with
  | nil => rfl
  | cons c cs ih =>
    cases hps : pysplit '\n' cs with
    | nil => exact absurd hps (pysplit_ne_nil '\n' cs)
    | cons h t =>
      rw [hps] at ih
      rw [pysplit_cons '\n' c cs hps]
      by_cases hc : c = '\n'
      · rw [if_pos hc, hc, joinNL_cons₂, List.nil_append, ih]
      · rw [if_neg hc, joinNL_cons_head, ih]

theorem pysplit_nonl : ∀ (x : List Char), ∀ l ∈ pysplit '\n' x, '\n' ∉ l := by
  intro x
  induction x with
  | nil =>
    intro l hl
    rw [pysplit] at hl
    rw [List.mem_singleton.1 hl]
    exact List.not_mem_nil '\n'
  | cons c cs ih =>
    intro l hl
    cases hps : pysplit '\n' cs with
    | nil => exact absurd hps (pysplit_ne_nil '\n' cs)
    | cons h t =>
      rw [pysplit_cons '\n' c cs hps] at hl
      by_cases hc : c = '\n'
      · rw [if_pos hc] at hl
        cases List.mem_cons.1 hl with
        | inl h0 => rw [h0]; exact List.not_mem_nil '\n'
        | inr h0 => exact ih l (by rw [hps]; exact h0)
      · rw [if_neg hc] at hl
        cases List.mem_cons.1 hl with
        | inl h0 =>
          rw [h0]
          intro hm
          cases List.mem_cons.1 hm with
          | inl he => exact hc he.symm
          | inr he =>
            exact ih h (by rw [hps]; exact List.mem_cons_self h t) he
        | inr h0 => exact ih l (by rw [hps]; exact List.mem_cons_of_mem h h0)

theorem pysplit_nosep : ∀ (l : List Char), '\n' ∉ l → pysplit '\n' l = [l] := by
  intro l
  induction l with
  | nil => intro _; rfl
  | cons c cs ih =>
    intro h
    have hcs : pysplit '\n' cs = [cs] :=
      ih (fun hm => h (List.mem_cons_of_mem c hm))
    rw [pysplit_cons '\n' c cs hcs,
      if_neg (fun he => h (by rw [he]; exact List.mem_cons_self '\n' cs))]

theorem pysplit_append_nl (R : List Char) :
    ∀ (l : List Char), '\n' ∉ l →
      pysplit '\n' (l ++ '\n' :: R) = l :: pysplit '\n' R := by
  intro l
  induction l with
  | nil =>
    intro _
    rw [List.nil_append]
    cases hps : pysplit '\n' R with
    | nil => exact absurd hps (pysplit_ne_nil '\n' R)
    | cons h t =>
      rw [pysplit_cons '\n' '\n' R hps, if_pos rfl]
  | cons c l' ih =>
    intro h
    have hih := ih (fun hm => h (List.mem_cons_of_mem c hm))
    rw [List.cons_append, pysplit_cons '\n' c (l' ++ '\n' :: R) hih,
      if_neg (fun he => h (by rw [he]; exact List.mem_cons_self '\n' l'))]

theorem splitjoin_inv :
    ∀ (L : List (List Char)), L ≠ [] → (∀ l ∈ L, '\n' ∉ l) →
      pysplit '\n' (joinNL L) = L := by
  intro L
  induction L with
  | nil => intro h _; exact absurd rfl h
  | cons l t ih =>
    intro _ hnl
    cases t with
    | nil =>
      show pysplit '\n' l = [l]
      exact pysplit_nosep l (hnl l (List.mem_singleton.2 rfl))
    | cons h2 t2 =>
      rw [joinNL_cons₂,
        pysplit_append_nl (joinNL (h2 :: t2)) l (hnl l (List.mem_cons_self l _)),
        ih (List.cons_ne_nil h2 t2) (fun x hx => hnl x (List.mem_cons_of_mem l hx))]

end C8Stage6c

section C8Stage6d

open PyStr Uni Normalizers

theorem replaceGo_nil (pat rep : List Char) (k : Nat) :
    replaceGo pat rep [] k = [] := rfl

theorem replaceGo_skip (pat rep : List Char) (c : Char) (cs : List Char) (k : Nat) :
    replaceGo pat rep (c :: cs) (k + 1) = replaceGo pat rep cs k := rfl

theorem replaceGo_zero (pat rep : List Char) (c : Char) (cs : List Char) :
    replaceGo pat rep (c :: cs) 0 =
      if pat ≠ [] ∧ pat.isPrefixOf (c :: cs) then
        rep ++ replaceGo pat rep cs (pat.length - 1)
      else c :: replaceGo pat rep cs 0 := rfl

theorem mem_replaceGo (pat rep : List Char) :
    ∀ (s : List Char) (k : Nat) (x : Char),
      x ∈ replaceGo pat rep s k → x ∈ s ∨ x ∈ rep := by
  intro s
  induction s with
  | nil =>
    intro k x hx
    rw [replaceGo_nil] at hx
    exact absurd hx (List.not_mem_nil x)
  | cons c cs ih =>
    intro k x hx
    cases k with
    | succ k2 =>
      rw [replaceGo_skip] at hx
      cases ih k2 x hx with
      | inl h => exact Or.inl (List.mem_cons_of_mem c h)
      | inr h => exact Or.inr h
    | zero =>
      rw [replaceGo_zero] at hx
      by_cases hm : pat ≠ [] ∧ pat.isPrefixOf (c :: cs)
      · rw [if_pos hm] at hx
        cases List.mem_append.1 hx with
        | inl h => exact Or.inr h
        | inr h =>
          cases ih (pat.length - 1) x h with
          | inl h2 => exact Or.inl (List.mem_cons_of_mem c h2)
          | inr h2 => exact Or.inr h2
      · rw [if_neg hm] at hx
        cases List.mem_cons.1 hx with
        | inl h => exact Or.inl (List.mem_cons.2 (Or.inl h))
        | inr h =>
          cases ih 0 x h with
          | inl h2 => exact Or.inl (List.mem_cons_of_mem c h2)
          | inr h2 => exact Or.inr h2

theorem mem_replaceSub {pat rep s : List Char} {x : Char}
    (hx : x ∈ replaceSub pat rep s) : x ∈ s ∨ x ∈ rep :=
  mem_replaceGo pat rep s 0 x hx

theorem replaceSub_nonl {pat rep s : List Char} (hs : '\n' ∉ s)
    (hr : '\n' ∉ rep) : '\n' ∉ replaceSub pat rep s := by
  intro hm
  cases mem_replaceSub hm with
  | inl h => exact hs h
  | inr h => exact hr h

theorem decompChar_nonl {c : Char} (hc : c ≠ '\n') : '\n' ∉ decompChar c := by
  cases decompChar_cases c with
  | inl h =>
    rw [h]
    intro hm
    exact hc (List.mem_singleton.1 hm).symm
  | inr h =>
    obtain ⟨e, he, _, hd⟩ := h
    rw [hd]
    intro hm
    have hab : e.a ≠ '\n' ∧ e.b ≠ '\n' := by
      have htab : ∀ e2 ∈ Uni.compTable, e2.a ≠ '\n' ∧ e2.b ≠ '\n' := by decide
      exact htab e he
    cases List.mem_cons.1 hm with
    | inl h2 => exact hab.1 h2.symm
    | inr h2 => exact hab.2 (List.mem_singleton.1 h2).symm

theorem decompAll_nonl : ∀ (s : List Char), '\n' ∉ s → '\n' ∉ decompAll s := by
  intro s
  induction s with
  | nil => intro _ hm; exact absurd hm (List.not_mem_nil '\n')
  | cons c cs ih =>
    intro hs hm
    rw [decompAll_cons] at hm
    cases List.mem_append.1 hm with
    | inl h =>
      exact decompChar_nonl
        (fun he => hs (by rw [he]; exact List.mem_cons_self '\n' cs)) h
    | inr h => exact ih (fun h2 => hs (List.mem_cons_of_mem c h2)) h

theorem composeAdj_nonl : ∀ (t : List Char), '\n' ∉ t → '\n' ∉ composeAdj t := by
  intro t
  induction t with
  | nil => intro _ hm; exact absurd hm (List.not_mem_nil '\n')
  | cons a rest ih =>
    intro ht hm
    have hrest : '\n' ∉ composeAdj rest :=
      ih (fun h2 => ht (List.mem_cons_of_mem a h2))
    have ha : ¬ '\n' = a := fun he => ht (List.mem_cons.2 (Or.inl he))
    cases hv : composeAdj rest with
    | nil =>
      rw [composeAdj_cons_eqnil hv] at hm
      exact ha (List.mem_singleton.1 hm)
    | cons b r =>
      cases hcb : composePair a b with
      | none =>
        rw [composeAdj_cons_none hv hcb] at hm
        cases List.mem_cons.1 hm with
        | inl h2 => exact ha h2
        | inr h2 => exact hrest (by rw [hv]; exact h2)
      | some d =>
        rw [composeAdj_cons_some hv hcb] at hm
        cases List.mem_cons.1 hm with
        | inl h2 =>
          obtain ⟨e, he, _, _, hec⟩ := composePair_mem hcb
          have htab : ∀ e2 ∈ Uni.compTable, e2.c ≠ '\n' := by decide
          exact htab e he (hec.trans h2.symm)
        | inr h2 =>
          exact hrest (by rw [hv]; exact List.mem_cons_of_mem b h2)

theorem nfc_nonl {s : List Char} (hs : '\n' ∉ s) : '\n' ∉ nfc s :=
  composeAdj_nonl _ (decompAll_nonl s hs)

theorem applyReplaces_nonl {s : List Char} (hs : '\n' ∉ s) :
    '\n' ∉ applyReplaces s := by
  rw [applyReplaces_eq]
  exact replaceSub_nonl
    (replaceSub_nonl (replaceSub_nonl hs (by decide)) (by decide)) (by decide)

theorem mem_pystrip {s : List Char} {x : Char} (hx : x ∈ pystrip s) : x ∈ s := by
  obtain ⟨m, h1, h2⟩ := pystrip_pre_suf s
  exact h2.subset (h1.subset hx)

theorem pystrip_nonl {s : List Char} (hs : '\n' ∉ s) : '\n' ∉ pystrip s :=
  fun hm => hs (mem_pystrip hm)

end C8Stage6d

section C8Stage6e

open PyStr Uni Normalizers

theorem dropWhile_head_false (p : Char → Bool) :
    ∀ (s : List Char) (a : Char) (t : List Char),
      s.dropWhile p = a :: t → p a = false := by
  intro s
  induction s with
  | nil =>
    intro a t h
    rw [List.dropWhile_nil] at h
    exact List.noConfusion h
  | cons c cs ih =>
    intro a t h
    rw [List.dropWhile_cons] at h
    by_cases hc : p c = true
    · rw [if_pos hc] at h
      exact ih a t h
    · rw [if_neg hc] at h
      rw [← (List.cons.inj h).1]
      rw [← Bool.not_eq_true]
      exact hc

theorem dropWhile_id_of_head (p : Char → Bool) (s : List Char)
    (h : ∀ a t, s = a :: t → p a = false) : s.dropWhile p = s := by
  cases s with
  | nil => rfl
  | cons a t =>
    rw [List.dropWhile_cons,
      if_neg (by rw [h a t rfl]; exact Bool.false_ne_true)]

theorem pystrip_front (s : List Char) :
    ∀ a t, pystrip s = a :: t → isPySpace a = false := by
  intro a t h
  unfold pystrip at h
  have hvne : (s.dropWhile isPySpace).reverse.dropWhile isPySpace ≠ [] := by
    intro h0
    rw [h0] at h
    exact List.noConfusion h
  obtain ⟨w, hw⟩ := dropWhile_suf isPySpace (s.dropWhile isPySpace).reverse
  have hgl : ((s.dropWhile isPySpace).reverse.dropWhile isPySpace).getLast? =
      (s.dropWhile isPySpace).head? := by
    calc ((s.dropWhile isPySpace).reverse.dropWhile isPySpace).getLast?
        = (w ++ (s.dropWhile isPySpace).reverse.dropWhile isPySpace).getLast? :=
          (List.getLast?_append_of_ne_nil w hvne).symm
      _ = (s.dropWhile isPySpace).reverse.getLast? := by rw [hw]
      _ = (s.dropWhile isPySpace).head? := List.getLast?_reverse _
  have ha : ((s.dropWhile isPySpace).reverse.dropWhile isPySpace).getLast? =
      some a := by
    rw [← List.head?_reverse, h]
    rfl
  rw [hgl] at ha
  cases hu : s.dropWhile isPySpace with
  | nil => rw [hu] at ha; exact Option.noConfusion ha
  | cons b bt =>
    rw [hu, List.head?_cons, Option.some.injEq] at ha
    rw [← ha]
    exact dropWhile_head_false isPySpace s b bt hu

theorem pystrip_back (s : List Char) :
    ∀ a t, (pystrip s).reverse = a :: t → isPySpace a = false := by
  intro a t h
  unfold pystrip at h
  rw [List.reverse_reverse] at h
  exact dropWhile_head_false isPySpace (s.dropWhile isPySpace).reverse a t h

theorem pystrip_idem (s : List Char) : pystrip (pystrip s) = pystrip s := by
  show (((pystrip s).dropWhile isPySpace).reverse.dropWhile isPySpace).reverse =
    pystrip s
  rw [dropWhile_id_of_head isPySpace (pystrip s) (pystrip_front s)]
  rw [dropWhile_id_of_head isPySpace (pystrip s).reverse (pystrip_back s)]
  exact List.reverse_reverse _

end C8Stage6e

section C8Stage7

open PyStr Uni Normalizers

theorem applyReplaces_noocc (w : List Char) :
    hasOcc ['※'] (applyReplaces w) = false ∧
    hasOcc ['／', '＼'] (applyReplaces w) = false ∧
    hasOcc ['／', '″', '＼'] (applyReplaces w) = false := by
  rw [applyReplaces_eq]
  have h1 : hasOcc ['※'] (replaceSub ['※'] ['�'] w) = false :=
    noocc_replace (by decide) (by decide) (by decide) w.length w le_rfl (Or.inl rfl)
  have h1b : hasOcc ['※']
      (replaceSub ['／', '＼'] ['〱'] (replaceSub ['※'] ['�'] w)) = false :=
    noocc_replace (by decide) (by decide) (by decide) _ _ le_rfl (Or.inr h1)
  have h2 : hasOcc ['／', '＼']
      (replaceSub ['／', '＼'] ['〱'] (replaceSub ['※'] ['�'] w)) = false :=
    noocc_replace (by decide) (by decide) (by decide) _ _ le_rfl (Or.inl rfl)
  exact ⟨noocc_replace (by decide) (by decide) (by decide) _ _ le_rfl (Or.inr h1b),
    noocc_replace (by decide) (by decide) (by decide) _ _ le_rfl (Or.inr h2),
    noocc_replace (by decide) (by decide) (by decide) _ _ le_rfl (Or.inl rfl)⟩

theorem applyReplaces_fix {m : List Char}
    (hA : hasOcc ['※'] m = false)
    (hB : hasOcc ['／', '＼'] m = false)
    (hC : hasOcc ['／', '″', '＼'] m = false) : applyReplaces m = m := by
  rw [applyReplaces_eq, replaceSub_id_of_noocc hA, replaceSub_id_of_noocc hB,
    replaceSub_id_of_noocc hC]

theorem line_fix (l : List Char) :
    nfc (pystrip (applyReplaces (nfc l))) = pystrip (applyReplaces (nfc l)) ∧
    applyReplaces (pystrip (applyReplaces (nfc l))) =
      pystrip (applyReplaces (nfc l)) ∧
    pystrip (pystrip (applyReplaces (nfc l))) = pystrip (applyReplaces (nfc l)) := by
  refine ⟨?_, ?_, pystrip_idem _⟩
  · apply nopair_nfc_id
    apply nopair_pystrip
    rw [applyReplaces_eq]
    exact nopair_replaceSub inert_3032
      (nopair_replaceSub inert_3031 (nopair_replaceSub inert_fffd (nfc_nopair l)))
  · exact applyReplaces_fix
      (hasOcc_pystrip (applyReplaces_noocc (nfc l)).1)
      (hasOcc_pystrip (applyReplaces_noocc (nfc l)).2.1)
      (hasOcc_pystrip (applyReplaces_noocc (nfc l)).2.2)

theorem cleanProps (x : List Char) :
    ∀ m ∈ ((pysplit '\n' x).map
        (fun l => pystrip (applyReplaces (nfc l)))).filter (fun l => l ≠ []),
      ('\n' ∉ m) ∧ pystrip (applyReplaces (nfc m)) = m := by
  intro m hm
  have hm2 := List.mem_filter.1 hm
  obtain ⟨l0, hl0, hle⟩ := List.mem_map.1 hm2.1
  subst hle
  refine ⟨?_, ?_⟩
  · exact pystrip_nonl (applyReplaces_nonl (nfc_nonl (pysplit_nonl x l0 hl0)))
  · obtain ⟨ha, hb, hc⟩ := line_fix l0
    rw [ha, hb, hc]

theorem map_self {α : Type} (f : α → α) :
    ∀ (L : List α), (∀ m ∈ L, f m = m) → L.map f = L := by
  intro L
  induction L with
  | nil => intro _; rfl
  | cons a t ih =>
    intro h
    rw [List.map_cons, h a (List.mem_cons_self a t),
      ih (fun m hm => h m (List.mem_cons_of_mem a hm))]

theorem filter_self {α : Type} (p : α → Bool) :
    ∀ (L : List α), (∀ m ∈ L, p m = true) → L.filter p = L := by
  intro L
  induction L with
  | nil => intro _; rfl
  | cons a t ih =>
    intro h
    rw [List.filter_cons_of_pos (h a (List.mem_cons_self a t)),
      ih (fun m hm => h m (List.mem_cons_of_mem a hm))]

theorem pysplit_of_applyReplaces_nfc (x : List Char) :
    pysplit '\n' (applyReplaces (nfc x)) =
      (pysplit '\n' x).map (fun l => applyReplaces (nfc l)) := by
  have hL := pysplit_ne_nil '\n' x
  have hx : joinNL (pysplit '\n' x) = x := splitjoin x
  have hg : ∀ a b : List Char,
      applyReplaces (nfc (a ++ '\n' :: b)) =
        applyReplaces (nfc a) ++ '\n' :: applyReplaces (nfc b) := by
    intro a b
    rw [nfc_append_nl, applyReplaces_append_nl]
  calc pysplit '\n' (applyReplaces (nfc x))
      = pysplit '\n' (applyReplaces (nfc (joinNL (pysplit '\n' x)))) := by rw [hx]
    _ = pysplit '\n'
          (joinNL ((pysplit '\n' x).map (fun l => applyReplaces (nfc l)))) :=
        congrArg (pysplit '\n')
          (joinNL_map (fun l => applyReplaces (nfc l)) hg (pysplit '\n' x) hL)
    _ = (pysplit '\n' x).map (fun l => applyReplaces (nfc l)) := by
        refine splitjoin_inv _ ?_ ?_
        · intro hmap
          exact hL (List.map_eq_nil_iff.1 hmap)
        · intro l hl
          obtain ⟨l0, hl0, hle⟩ := List.mem_map.1 hl
          rw [← hle]
          exact applyReplaces_nonl (nfc_nonl (pysplit_nonl x l0 hl0))

theorem normalize_text_factored (x : List Char) :
    normalize_text x =
      joinNL (((pysplit '\n' x).map
        (fun l => pystrip (applyReplaces (nfc l)))).filter (fun l => l ≠ [])) := by
  show cleanLines (applyReplaces (nfc x)) = _
  unfold cleanLines
  rw [pysplit_of_applyReplaces_nfc x, List.map_map]
  rfl

/-- C8: `normalize_text` is idempotent, and it does not reorder the
non-blank lines of its input: the output is exactly the per-line
normalization of the input's lines, kept in their original order, with
blank results dropped. -/
theorem normalize_text_idem_order :
    (∀ x : List Char, normalize_text (normalize_text x) = normalize_text x) ∧
    (∀ x : List Char, normalize_text x =
      joinNL (((pysplit '\n' x).map
        (fun l => pystrip (applyReplaces (nfc l)))).filter (fun l => l ≠ []))) := by
  refine ⟨?_, normalize_text_factored⟩
  intro x
  rw [normalize_text_factored (normalize_text x), normalize_text_factored x]
  by_cases hM : ((pysplit '\n' x).map
      (fun l => pystrip (applyReplaces (nfc l)))).filter (fun l => l ≠ []) = []
  · rw [hM]
    rfl
  · rw [splitjoin_inv _ hM (fun m hm => (cleanProps x m hm).1)]
    rw [map_self _ _ (fun m hm => (cleanProps x m hm).2)]
    rw [filter_self _ _ ?hp]
    case hp =>
      intro m hm
      exact (List.mem_filter.1 hm).2

end C8Stage7
section C9Base

open Html StoreM

theorem stepOK_refl {N : Nat} {st : Store} (h : StoreInv N st) : StepOK N st st :=
  ⟨h, fun _ _ => rfl⟩

theorem stepOK_trans {N : Nat} {a b c : Store} (h1 : StepOK N a b)
    (h2 : StepOK N b c) : StepOK N a c :=
  ⟨h2.1, fun k hk => (h2.2 k hk).trans (h1.2 k hk)⟩

theorem find?_append_eq {α : Type} (p : α → Bool) (l1 l2 : List α) :
    (l1 ++ l2).find? p = match l1.find? p with
      | some a => some a
      | none => l2.find? p := by
  induction l1 with
  | nil => rfl
  | cons x xs ih =>
    by_cases hp : p x = true
    · rw [List.cons_append, List.find?_cons_of_pos _ hp, List.find?_cons_of_pos _ hp]
    · rw [List.cons_append, List.find?_cons_of_neg _ hp, List.find?_cons_of_neg _ hp,
        ih]

theorem lookupS_lt_next {st : Store} (hwf : wfS st) {k : Nat} {d : NData}
    (h : lookupS st k = some d) : k < st.next := by
  unfold lookupS at h
  cases hf : st.entries.find? (fun e => e.1 = k) with
  | none => rw [hf] at h; exact Option.noConfusion h
  | some e =>
    have he := List.mem_of_find?_eq_some hf
    have hp := List.find?_some hf
    have hek : e.1 = k := of_decide_eq_true hp
    rw [← hek]
    exact hwf e he

theorem find?_single_entry (a : Nat) (d : NData) (k : Nat) :
    ([(a, d)].find? (fun e => e.1 = k)) = if a = k then some (a, d) else none := by
  by_cases h : a = k
  · rw [if_pos h]
    exact @List.find?_cons_of_pos _ (fun e => e.1 = k) (a, d) [] (decide_eq_true h)
  · rw [if_neg h]
    rw [@List.find?_cons_of_neg _ (fun e => e.1 = k) (a, d) []
      (fun hc => h (of_decide_eq_true hc)), List.find?_nil]

theorem lookupS_alloc_lt (st : Store) (d : NData) {k : Nat} (hk : k < st.next) :
    lookupS (allocS st d).1 k = lookupS st k := by
  show ((st.entries ++ [(st.next, d)]).find? (fun e => e.1 = k)).map (·.2) =
    (st.entries.find? (fun e => e.1 = k)).map (·.2)
  rw [find?_append_eq]
  cases hf : st.entries.find? (fun e => e.1 = k) with
  | some e => rfl
  | none =>
    show (([(st.next, d)]).find? (fun e => e.1 = k)).map (·.2) = none
    rw [find?_single_entry, if_neg (Nat.ne_of_gt hk)]
    rfl

theorem lookupS_alloc_new (st : Store) (d : NData) (hwf : wfS st) :
    lookupS (allocS st d).1 st.next = some d := by
  show ((st.entries ++ [(st.next, d)]).find? (fun e => e.1 = st.next)).map (·.2) =
    some d
  rw [find?_append_eq]
  cases hf : st.entries.find? (fun e => e.1 = st.next) with
  | some e =>
    exfalso
    have he := List.mem_of_find?_eq_some hf
    have hp0 := List.find?_some hf
    have hp : e.1 = st.next := of_decide_eq_true hp0
    exact absurd (hp ▸ hwf e he) (Nat.lt_irrefl st.next)
  | none =>
    show (([(st.next, d)]).find? (fun e => e.1 = st.next)).map (·.2) = some d
    rw [find?_single_entry, if_pos rfl]
    rfl

theorem lookupS_alloc_cases (st : Store) (d : NData) (k : Nat) (d0 : NData)
    (h : lookupS (allocS st d).1 k = some d0) :
    lookupS st k = some d0 ∨ (k = st.next ∧ d0 = d) := by
  have h2 : ((st.entries ++ [(st.next, d)]).find? (fun e => e.1 = k)).map (·.2) =
    some d0 := h
  rw [find?_append_eq] at h2
  cases hf : st.entries.find? (fun e => e.1 = k) with
  | some e =>
    rw [hf] at h2
    left
    show (st.entries.find? (fun e => e.1 = k)).map (·.2) = some d0
    rw [hf]
    exact h2
  | none =>
    rw [hf] at h2
    have h3 : (([(st.next, d)]).find? (fun e => e.1 = k)).map (·.2) = some d0 := h2
    rw [find?_single_entry] at h3
    by_cases hnk : st.next = k
    · right
      rw [if_pos hnk] at h3
      exact ⟨hnk.symm, (Option.some.inj h3).symm⟩
    · rw [if_neg hnk] at h3
      exact absurd h3 Option.noConfusion

end C9Base

section C9Steps

open Html StoreM

theorem find?_update_ne (kid : Nat) (d : NData) (k : Nat) (hk : k ≠ kid) :
    ∀ (l : List (Nat × NData)),
      ((l.map (fun e => if e.1 = kid then (kid, d) else e)).find?
        (fun e => e.1 = k)) = l.find? (fun e => e.1 = k) := by
  intro l
  induction l with
  | nil => rfl
  | cons x xs ih =>
    rw [List.map_cons]
    by_cases hx : x.1 = kid
    · rw [if_pos hx]
      rw [@List.find?_cons_of_neg _ (fun e => e.1 = k) (kid, d) _
        (fun hc => hk ((of_decide_eq_true hc).symm))]
      rw [@List.find?_cons_of_neg _ (fun e => e.1 = k) x xs
        (fun hc => hk (((of_decide_eq_true hc).symm.trans hx)))]
      exact ih
    · rw [if_neg hx]
      by_cases hxk : x.1 = k
      · rw [@List.find?_cons_of_pos _ (fun e => e.1 = k) x _ (decide_eq_true hxk),
          @List.find?_cons_of_pos _ (fun e => e.1 = k) x xs (decide_eq_true hxk)]
      · rw [@List.find?_cons_of_neg _ (fun e => e.1 = k) x _
          (fun hc => hxk (of_decide_eq_true hc)),
          @List.find?_cons_of_neg _ (fun e => e.1 = k) x xs
          (fun hc => hxk (of_decide_eq_true hc))]
        exact ih

theorem lookupS_update_ne (st : Store) (kid : Nat) (d : NData) {k : Nat}
    (hk : k ≠ kid) : lookupS (updateS st kid d) k = lookupS st k := by
  show ((st.entries.map (fun e => if e.1 = kid then (kid, d) else e)).find?
    (fun e => e.1 = k)).map (·.2) = (st.entries.find? (fun e => e.1 = k)).map (·.2)
  rw [find?_update_ne kid d k hk st.entries]

theorem find?_update_self (kid : Nat) (d : NData) :
    ∀ (l : List (Nat × NData)),
      ((l.map (fun e => if e.1 = kid then (kid, d) else e)).find?
          (fun e => e.1 = kid)) = none ∨
      ((l.map (fun e => if e.1 = kid then (kid, d) else e)).find?
          (fun e => e.1 = kid)) = some (kid, d) := by
  intro l
  induction l with
  | nil => exact Or.inl rfl
  | cons x xs ih =>
    rw [List.map_cons]
    by_cases hx : x.1 = kid
    · right
      rw [if_pos hx]
      exact @List.find?_cons_of_pos _ (fun e => e.1 = kid) (kid, d) _
        (decide_eq_true rfl)
    · rw [if_neg hx]
      rw [@List.find?_cons_of_neg _ (fun e => e.1 = kid) x _
        (fun hc => hx (of_decide_eq_true hc))]
      exact ih

theorem lookupS_update_cases (st : Store) (kid : Nat) (d : NData) (k : Nat)
    (d0 : NData) (h : lookupS (updateS st kid d) k = some d0) :
    (k = kid ∧ d0 = d) ∨ lookupS st k = some d0 := by
  by_cases hk : k = kid
  · subst hk
    have h2 : ((st.entries.map (fun e => if e.1 = k then (k, d) else e)).find?
      (fun e => e.1 = k)).map (·.2) = some d0 := h
    cases find?_update_self k d st.entries with
    | inl h3 => rw [h3] at h2; exact absurd h2 Option.noConfusion
    | inr h3 =>
      rw [h3] at h2
      exact Or.inl ⟨rfl, (Option.some.inj h2).symm⟩
  · right
    rw [← lookupS_update_ne st kid d hk]
    exact h

theorem updateS_next (st : Store) (kid : Nat) (d : NData) :
    (updateS st kid d).next = st.next := rfl

theorem wfS_update (st : Store) (kid : Nat) (d : NData) (h : wfS st) :
    wfS (updateS st kid d) := by
  intro e he
  have he2 : e ∈ st.entries.map (fun e => if e.1 = kid then (kid, d) else e) := he
  obtain ⟨e0, he0, hfe⟩ := List.mem_map.1 he2
  show e.1 < st.next
  by_cases hx : e0.1 = kid
  · rw [← hfe, if_pos hx]
    show kid < st.next
    rw [← hx]
    exact h e0 he0
  · rw [← hfe, if_neg hx]
    exact h e0 he0

theorem wfS_alloc (st : Store) (d : NData) (h : wfS st) : wfS (allocS st d).1 := by
  intro e he
  have he2 : e ∈ st.entries ++ [(st.next, d)] := he
  show e.1 < st.next + 1
  cases List.mem_append.1 he2 with
  | inl h2 => exact Nat.lt_succ_of_lt (h e h2)
  | inr h2 =>
    rw [List.mem_singleton.1 h2]
    exact Nat.lt_succ_self _

theorem allocS_step {N : Nat} {st : Store} (d : NData) (hinv : StoreInv N st)
    (hd : ∀ c ∈ childIds d, N ≤ c) :
    StepOK N st (allocS st d).1 ∧ N ≤ (allocS st d).2 ∧
    (allocS st d).2 < (allocS st d).1.next := by
  obtain ⟨hN, hwf, hcl⟩ := hinv
  refine ⟨⟨⟨?_, wfS_alloc st d hwf, ?_⟩, ?_⟩, hN, Nat.lt_succ_self _⟩
  · exact Nat.le_succ_of_le hN
  · intro k d0 hk hNk c hc
    cases lookupS_alloc_cases st d k d0 hk with
    | inl h2 => exact hcl k d0 h2 hNk c hc
    | inr h2 =>
      rw [h2.2] at hc
      exact hd c hc
  · intro k hk
    exact lookupS_alloc_lt st d (Nat.lt_of_lt_of_le hk hN)

theorem updateS_step {N : Nat} {st : Store} (kid : Nat) (d : NData)
    (hinv : StoreInv N st) (hkid : N ≤ kid) (hd : ∀ c ∈ childIds d, N ≤ c) :
    StepOK N st (updateS st kid d) := by
  obtain ⟨hN, hwf, hcl⟩ := hinv
  refine ⟨⟨?_, wfS_update st kid d hwf, ?_⟩, ?_⟩
  · rw [updateS_next]
    exact hN
  · intro k d0 hk hNk c hc
    cases lookupS_update_cases st kid d k d0 hk with
    | inl h2 =>
      rw [h2.2] at hc
      exact hd c hc
    | inr h2 => exact hcl k d0 h2 hNk c hc
  · intro k hk
    exact lookupS_update_ne st kid d (fun he => absurd hkid
      (by rw [← he]; exact Nat.not_le_of_lt hk))

end C9Steps

section C9Alloc

open Html StoreM

mutual

theorem allocTree_inv {N : Nat} : ∀ (n : Node) (st : Store), StoreInv N st →
    StepOK N st (allocTree st n).1 ∧ N ≤ (allocTree st n).2
  | .text s, st, hinv => by
    have h := allocS_step (.txt s) hinv
      (fun c hc => absurd hc (List.not_mem_nil c))
    exact ⟨h.1, h.2.1⟩
  | .elem tg cls attrs cs, st, hinv => by
    have hL := allocTreeList_inv cs st hinv
    have hA := allocS_step (.el tg cls attrs (allocTreeList st cs).2) hL.1.1 hL.2
    exact ⟨stepOK_trans hL.1 hA.1, hA.2.1⟩

theorem allocTreeList_inv {N : Nat} : ∀ (ns : List Node) (st : Store),
    StoreInv N st →
    StepOK N st (allocTreeList st ns).1 ∧ ∀ c ∈ (allocTreeList st ns).2, N ≤ c
  | [], st, hinv =>
    ⟨stepOK_refl hinv, fun c hc => absurd hc (List.not_mem_nil c)⟩
  | n :: ns, st, hinv => by
    have h1 := allocTree_inv n st hinv
    have h2 := allocTreeList_inv ns (allocTree st n).1 h1.1.1
    refine ⟨stepOK_trans h1.1 h2.1, ?_⟩
    intro c hc
    cases List.mem_cons.1 hc with
    | inl he => rw [he]; exact h1.2
    | inr he => exact h2.2 c he

end

theorem deepcopyS_inv {N : Nat} (st : Store) (root fuel : Nat)
    (hinv : StoreInv N st) :
    StepOK N st (deepcopyS st root fuel).1 ∧ N ≤ (deepcopyS st root fuel).2 := by
  unfold deepcopyS
  cases treeAt fuel st root with
  | some t => exact allocTree_inv t st hinv
  | none =>
    have h := allocS_step (.txt []) hinv (fun c hc => absurd hc (List.not_mem_nil c))
    exact ⟨h.1, h.2.1⟩

end C9Alloc

section C9Mut

open Html StoreM

theorem mutChildrenGo_nil (repl : Store → Nat → Option (Except Unit (List Char)))
    (rec : Store → Nat → Store × Bool) (st : Store) :
    mutChildrenGo repl rec st [] = (st, some []) := rfl

theorem mutChildrenGo_cons_ok (repl : Store → Nat → Option (Except Unit (List Char)))
    (rec : Store → Nat → Store × Bool) (st : Store) (k : Nat) (ks : List Nat)
    (s : List Char) (hrepl : repl st k = some (.ok s)) :
    mutChildrenGo repl rec st (k :: ks) =
      (match mutChildrenGo repl rec (allocS st (.txt s)).1 ks with
       | (st', some ks') => (st', some ((allocS st (.txt s)).2 :: ks'))
       | (st', none) => (st', none)) := by
  conv_lhs => rw [mutChildrenGo]
  rw [hrepl]

theorem mutChildrenGo_cons_err (repl : Store → Nat → Option (Except Unit (List Char)))
    (rec : Store → Nat → Store × Bool) (st : Store) (k : Nat) (ks : List Nat)
    (e : Unit) (hrepl : repl st k = some (.error e)) :
    mutChildrenGo repl rec st (k :: ks) = (st, none) := by
  conv_lhs => rw [mutChildrenGo]
  rw [hrepl]

theorem mutChildrenGo_cons_none_true
    (repl : Store → Nat → Option (Except Unit (List Char)))
    (rec : Store → Nat → Store × Bool) (st : Store) (k : Nat) (ks : List Nat)
    (hrepl : repl st k = none) {st1 : Store} (hrc : rec st k = (st1, true)) :
    mutChildrenGo repl rec st (k :: ks) =
      (match mutChildrenGo repl rec st1 ks with
       | (st', some ks') => (st', some (k :: ks'))
       | (st', none) => (st', none)) := by
  conv_lhs => rw [mutChildrenGo]
  rw [hrepl, hrc]

theorem mutChildrenGo_cons_none_false
    (repl : Store → Nat → Option (Except Unit (List Char)))
    (rec : Store → Nat → Store × Bool) (st : Store) (k : Nat) (ks : List Nat)
    (hrepl : repl st k = none) {st1 : Store} (hrc : rec st k = (st1, false)) :
    mutChildrenGo repl rec st (k :: ks) = (st1, none) := by
  conv_lhs => rw [mutChildrenGo]
  rw [hrepl, hrc]

theorem mutPass_zero (repl : Store → Nat → Option (Except Unit (List Char)))
    (st : Store) (i : Nat) : mutPass repl 0 st i = (st, true) := rfl

theorem mutPass_succ_el (repl : Store → Nat → Option (Except Unit (List Char)))
    (fuel : Nat) (st : Store) (i : Nat) {tg : List Char} {cls : List (List Char)}
    {attrs : List (List Char × List Char)} {cids : List Nat}
    (hl : lookupS st i = some (.el tg cls attrs cids)) :
    mutPass repl (fuel + 1) st i =
      (match mutChildrenGo repl (mutPass repl fuel) st cids with
       | (st', some cids') => (updateS st' i (.el tg cls attrs cids'), true)
       | (st', none) => (st', false)) := by
  conv_lhs => rw [mutPass]
  rw [hl]

theorem mutPass_succ_txt (repl : Store → Nat → Option (Except Unit (List Char)))
    (fuel : Nat) (st : Store) (i : Nat) (s : List Char)
    (hl : lookupS st i = some (.txt s)) :
    mutPass repl (fuel + 1) st i = (st, true) := by
  conv_lhs => rw [mutPass]
  rw [hl]

theorem mutPass_succ_none (repl : Store → Nat → Option (Except Unit (List Char)))
    (fuel : Nat) (st : Store) (i : Nat) (hl : lookupS st i = none) :
    mutPass repl (fuel + 1) st i = (st, true) := by
  conv_lhs => rw [mutPass]
  rw [hl]

theorem mutChildrenGo_inv {N : Nat}
    (repl : Store → Nat → Option (Except Unit (List Char)))
    (rec : Store → Nat → Store × Bool)
    (hrec : ∀ st k, StoreInv N st → N ≤ k → StepOK N st (rec st k).1) :
    ∀ (ks : List Nat) (st : Store), StoreInv N st → (∀ c ∈ ks, N ≤ c) →
      StepOK N st (mutChildrenGo repl rec st ks).1 ∧
      (∀ ks', (mutChildrenGo repl rec st ks).2 = some ks' → ∀ c ∈ ks', N ≤ c) := by
  intro ks
  induction ks with
  | nil =>
    intro st hinv _
    rw [mutChildrenGo_nil]
    refine ⟨stepOK_refl hinv, ?_⟩
    intro ks' hks' c hc
    rw [← Option.some.inj hks'] at hc
    exact absurd hc (List.not_mem_nil c)
  | cons k ks ih =>
    intro st hinv hks
    have hkN : N ≤ k := hks k (List.mem_cons_self k ks)
    have hksN : ∀ c ∈ ks, N ≤ c := fun c hc => hks c (List.mem_cons_of_mem k hc)
    cases hrepl : repl st k with
    | some exc =>
      cases exc with
      | ok s =>
        rw [mutChildrenGo_cons_ok repl rec st k ks s hrepl]
        have hstep := allocS_step (.txt s) hinv
          (fun c hc => absurd hc (List.not_mem_nil c))
        have hin := ih (allocS st (.txt s)).1 hstep.1.1 hksN
        cases hmc : mutChildrenGo repl rec (allocS st (.txt s)).1 ks with
        | mk st' o =>
          rw [hmc] at hin
          cases o with
          | some ks0 =>
            refine ⟨stepOK_trans hstep.1 hin.1, ?_⟩
            intro ks' hks' c hc
            have h2 : some ((allocS st (.txt s)).2 :: ks0) = some ks' := hks'
            rw [← Option.some.inj h2] at hc
            cases List.mem_cons.1 hc with
            | inl he => rw [he]; exact hstep.2.1
            | inr he => exact hin.2 ks0 rfl c he
          | none =>
            refine ⟨stepOK_trans hstep.1 hin.1, ?_⟩
            intro ks' hks'
            have h2 : (none : Option (List Nat)) = some ks' := hks'
            exact Option.noConfusion h2
      | error e =>
        rw [mutChildrenGo_cons_err repl rec st k ks e hrepl]
        refine ⟨stepOK_refl hinv, ?_⟩
        intro ks' hks'
        have h2 : (none : Option (List Nat)) = some ks' := hks'
        exact Option.noConfusion h2
    | none =>
      have hr := hrec st k hinv hkN
      cases hrc : rec st k with
      | mk st1 b =>
        rw [hrc] at hr
        cases b with
        | true =>
          rw [mutChildrenGo_cons_none_true repl rec st k ks hrepl hrc]
          have hin := ih st1 hr.1 hksN
          cases hmc : mutChildrenGo repl rec st1 ks with
          | mk st' o =>
            rw [hmc] at hin
            cases o with
            | some ks0 =>
              refine ⟨stepOK_trans hr hin.1, ?_⟩
              intro ks' hks' c hc
              have h2 : some (k :: ks0) = some ks' := hks'
              rw [← Option.some.inj h2] at hc
              cases List.mem_cons.1 hc with
              | inl he => rw [he]; exact hkN
              | inr he => exact hin.2 ks0 rfl c he
            | none =>
              refine ⟨stepOK_trans hr hin.1, ?_⟩
              intro ks' hks'
              have h2 : (none : Option (List Nat)) = some ks' := hks'
              exact Option.noConfusion h2
        | false =>
          rw [mutChildrenGo_cons_none_false repl rec st k ks hrepl hrc]
          refine ⟨hr, ?_⟩
          intro ks' hks'
          have h2 : (none : Option (List Nat)) = some ks' := hks'
          exact Option.noConfusion h2

theorem mutPass_inv {N : Nat}
    (repl : Store → Nat → Option (Except Unit (List Char))) :
    ∀ (fuel : Nat) (st : Store) (i : Nat), StoreInv N st → N ≤ i →
      StepOK N st (mutPass repl fuel st i).1 := by
  intro fuel
  induction fuel with
  | zero =>
    intro st i hinv _
    rw [mutPass_zero]
    exact stepOK_refl hinv
  | succ fuel ih =>
    intro st i hinv hiN
    cases hl : lookupS st i with
    | none =>
      rw [mutPass_succ_none repl fuel st i hl]
      exact stepOK_refl hinv
    | some d =>
      cases d with
      | txt s =>
        rw [mutPass_succ_txt repl fuel st i s hl]
        exact stepOK_refl hinv
      | el tg cls attrs cids =>
        rw [mutPass_succ_el repl fuel st i hl]
        have hcids : ∀ c ∈ cids, N ≤ c := hinv.2.2 i _ hl hiN
        have hmc := mutChildrenGo_inv repl (mutPass repl fuel)
          (fun st2 k2 hi2 hk2 => ih st2 k2 hi2 hk2) cids st hinv hcids
        cases hres : mutChildrenGo repl (mutPass repl fuel) st cids with
        | mk st' o =>
          rw [hres] at hmc
          cases o with
          | some cids' =>
            have hupd := updateS_step i (.el tg cls attrs cids') hmc.1.1 hiN
              (hmc.2 cids' rfl)
            exact stepOK_trans hmc.1 hupd
          | none => exact hmc.1

theorem runPasses_nil (fuel : Nat) (st : Store) (root : Nat) :
    runPasses [] fuel st root = (st, true) := rfl

theorem runPasses_cons (p : Store → Nat → Option (Except Unit (List Char)))
    (rest : List (Store → Nat → Option (Except Unit (List Char))))
    (fuel : Nat) (st : Store) (root : Nat) :
    runPasses (p :: rest) fuel st root =
      (match mutPass p fuel st root with
       | (st1, true) => runPasses rest fuel st1 root
       | (st1, false) => (st1, false)) := rfl

theorem runPasses_inv {N : Nat} :
    ∀ (ps : List (Store → Nat → Option (Except Unit (List Char)))) (fuel : Nat)
      (st : Store) (root : Nat), StoreInv N st → N ≤ root →
      StepOK N st (runPasses ps fuel st root).1 := by
  intro ps
  induction ps with
  | nil =>
    intro fuel st root hinv _
    rw [runPasses_nil]
    exact stepOK_refl hinv
  | cons p rest ih =>
    intro fuel st root hinv hroot
    rw [runPasses_cons]
    have hmp := mutPass_inv p fuel st root hinv hroot
    cases hr : mutPass p fuel st root with
    | mk st1 b =>
      rw [hr] at hmp
      cases b with
      | true => exact stepOK_trans hmp (ih fuel st1 root hmp.1 hroot)
      | false => exact hmp

end C9Mut

section C9Main

open Html StoreM

theorem storeInv_init {st : Store} (hwf : wfS st) : StoreInv st.next st := by
  refine ⟨le_rfl, hwf, ?_⟩
  intro k d hk hge c hc
  exact absurd (lookupS_lt_next hwf hk) (Nat.not_lt.2 hge)

theorem fst_ite {α β : Type} (c : Prop) [Decidable c] (x : α) (u v : β) :
    (if c then (x, u) else (x, v)).1 = x := by
  by_cases h : c
  · rw [if_pos h]
  · rw [if_neg h]

theorem extract_textST_texts_fst (st : Store) (root : Nat) (major : List Char)
    (fuel : Nat) :
    (extract_textST_texts st root major fuel).1 =
      (runPasses [rubyReplS major fuel, gaijiReplSBT, imgReplS, notesReplS,
        nlStrReplS, brReplS] fuel (deepcopyS st root fuel).1
        (deepcopyS st root fuel).2).1 :=
  fst_ite _ _ _ _

theorem extract_textST_bp_fst (st : Store) (root : Nat) (major : List Char)
    (fuel : Nat) :
    (extract_textST_bp st root major fuel).1 =
      (runPasses [rubyReplS major fuel, gaijiReplSBP, imgReplS, notesReplS,
        nlStrReplS, brReplS] fuel (deepcopyS st root fuel).1
        (deepcopyS st root fuel).2).1 :=
  fst_ite _ _ _ _

theorem extract_textST_texts_frame (st : Store) (root : Nat) (major : List Char)
    (fuel : Nat) (hwf : wfS st) (k : Nat) (hk : k < st.next) :
    lookupS (extract_textST_texts st root major fuel).1 k = lookupS st k := by
  have hinv := storeInv_init hwf
  have hdc := deepcopyS_inv st root fuel hinv
  have hrp := runPasses_inv [rubyReplS major fuel, gaijiReplSBT, imgReplS,
    notesReplS, nlStrReplS, brReplS] fuel (deepcopyS st root fuel).1
    (deepcopyS st root fuel).2 hdc.1.1 hdc.2
  have hstep := stepOK_trans hdc.1 hrp
  rw [extract_textST_texts_fst]
  exact hstep.2 k hk

theorem extract_textST_bp_frame (st : Store) (root : Nat) (major : List Char)
    (fuel : Nat) (hwf : wfS st) (k : Nat) (hk : k < st.next) :
    lookupS (extract_textST_bp st root major fuel).1 k = lookupS st k := by
  have hinv := storeInv_init hwf
  have hdc := deepcopyS_inv st root fuel hinv
  have hrp := runPasses_inv [rubyReplS major fuel, gaijiReplSBP, imgReplS,
    notesReplS, nlStrReplS, brReplS] fuel (deepcopyS st root fuel).1
    (deepcopyS st root fuel).2 hdc.1.1 hdc.2
  have hstep := stepOK_trans hdc.1 hrp
  rw [extract_textST_bp_fst]
  exact hstep.2 k hk

/-- C9: neither extractor mutates the tree passed in by its caller.  In
the heap model both `extract_text` embeddings work on a
`copy.deepcopy`-style fresh copy, so every node object the caller could
reach before the call dereferences to exactly the same data after it,
for either major mode, any fuel and any root. -/
theorem extract_text_no_mutation (st : Store) (root : Nat) (major : List Char)
    (fuel : Nat) (hwf : wfS st) (k : Nat) (d : NData)
    (hk : lookupS st k = some d) :
    lookupS (extract_textST_texts st root major fuel).1 k = some d ∧
    lookupS (extract_textST_bp st root major fuel).1 k = some d := by
  have hlt := lookupS_lt_next hwf hk
  rw [extract_textST_texts_frame st root major fuel hwf k hlt,
    extract_textST_bp_frame st root major fuel hwf k hlt]
  exact ⟨hk, hk⟩

/-- C9 witness: the no-mutation theorem applied at a concrete one-node
heap, a concrete root and fuel, in ruby-base mode. -/
theorem extract_text_no_mutation_witness :
    wfS Fix.store0 ∧ lookupS Fix.store0 0 = some (.txt (Html.S "x")) ∧
    (lookupS (extract_textST_texts Fix.store0 0 (Html.S "rb") 5).1 0 =
        some (.txt (Html.S "x")) ∧
     lookupS (extract_textST_bp Fix.store0 0 (Html.S "rb") 5).1 0 =
        some (.txt (Html.S "x"))) :=
  ⟨by unfold wfS; decide, by decide,
   extract_text_no_mutation Fix.store0 0 (Html.S "rb") 5
     (by unfold wfS; decide) 0 (.txt (Html.S "x")) (by decide)⟩

end C9Main
